import Mathlib

/-!
# ParallelFor (examples/cpp/example_mt_search.cpp)

A shallow embedding of the multithreaded executor `ParallelFor` and a
verification of its work-distribution and failure-capture protocol.

* `size_t` values are natural numbers below `SIZE_MOD = 2^64`; the atomic
  `fetch_add` wraps modulo `SIZE_MOD`.
* The callable `fn(id, threadId)` is a function to `Option ε`: `none` when the
  call returns normally, `some e` when it throws `e`.
* `std::thread::hardware_concurrency()` is the parameter `hw`.
* The multi-thread branch is a transition system. One transition is one
  shared-memory action of one thread; a schedule (a list of thread positions)
  picks the thread that moves next, so the schedules are the interleavings.
  A schedule entry naming a finished, blocked or non-existent thread leaves the
  state unchanged.
* `calls` and `acquired` are history variables: the invocations of `fn` in the
  order they were entered, and the acquisitions of `lastExceptMutex`.
-/

namespace MtSearch

/-! ## The program -/

/-- Number of values of `size_t`. -/
def SIZE_MOD : Nat := 2 ^ 64

/-- The callable passed to `ParallelFor`: `fn id threadId`. -/
abbrev Callable (ε : Type) := Nat → Nat → Option ε

/-- One entry of the invocation history: `thread` is the position of the
spawned thread that made the call (`none` for the calling thread), `index` and
`workerId` are the two arguments handed to `fn`. -/
structure Event where
  thread : Option Nat
  index : Nat
  workerId : Nat
  deriving DecidableEq, Repr

/-- Line 12-14: `if (numThreads <= 0) numThreads = hardware_concurrency();`. -/
def resolveThreads (hw numThreads : Nat) : Nat :=
  if numThreads ≤ 0 then hw else numThreads

/-- Lines 71, 98 and 132: `main` passes the `int num_threads` for the `size_t`
parameter `numThreads`; the implicit conversion reduces it modulo `2^64`. -/
def toSizeT (z : Int) : Nat :=
  (z % (2 ^ 64 : Int)).toNat

/-- What a finished call of `ParallelFor` did: the exception that left it
(`none` for a normal return), the invocations of `fn`, and how many threads it
spawned. -/
structure Outcome (ε : Type) where
  thrown : Option ε
  calls : List Event
  spawned : Nat
  deriving DecidableEq, Repr

/-- Lines 17-19: `for (size_t id = start; id < end; id++) fn(id, 0);`.
An exception of `fn` leaves the loop at once. `id < end` bounds `id + 1` by
`end`, so the increment cannot wrap. -/
def forLoop {ε : Type} (fn : Callable ε) (endIdx : Nat) (id : Nat) (log : List Event) :
    Outcome ε :=
  if id < endIdx then
    match fn id 0 with
    | none => forLoop fn endIdx (id + 1) (log ++ [⟨none, id, 0⟩])
    | some e => ⟨some e, log ++ [⟨none, id, 0⟩], 0⟩
  else ⟨none, log, 0⟩
termination_by endIdx - id

/-- Where a spawned thread stands in the lambda of lines 30-53. -/
inductive Pc (ε : Type) where
  /-- line 32: about to execute `current.fetch_add(1)` and the test of line 34 -/
  | fetch : Pc ε
  /-- line 39: holds `id < end`, has not entered `fn` yet -/
  | call : Nat → Pc ε
  /-- line 39: inside `fn(id, threadId)` -/
  | running : Nat → Pc ε
  /-- line 41: `fn` threw, waiting for `lastExceptMutex` -/
  | caught : ε → Pc ε
  /-- line 42: holds the mutex, about to assign `lastException` -/
  | locked : ε → Pc ε
  /-- line 49: holds the mutex, about to assign `current = end` -/
  | store : Pc ε
  /-- line 50: `break` leaves the handler and releases the mutex -/
  | unlock : Pc ε
  /-- the lambda has returned -/
  | done : Pc ε
  deriving DecidableEq, Repr

/-- A spawned thread: the `threadId` captured by value at line 30 and its
position in the lambda. -/
structure Worker (ε : Type) where
  threadId : Nat
  pc : Pc ε
  deriving DecidableEq, Repr

/-- The shared state of the multi-thread branch (lines 21-27) with the two
history variables. -/
structure State (ε : Type) where
  current : Nat
  lastException : Option ε
  mutexOwner : Option Nat
  threads : List (Worker ε)
  calls : List Event
  acquired : List (Nat × ε)
  deriving DecidableEq, Repr

/-- Lines 29-30: the spawn loop pushes one thread per `threadId` in
`0, 1, ..., numThreads - 1`, each at the top of its loop. -/
def spawnThreads (ε : Type) (numThreads : Nat) : List (Worker ε) :=
  (List.range numThreads).map (fun threadId => ⟨threadId, Pc.fetch⟩)

/-- Lines 21-30: the state after the spawn loop. -/
def initState (ε : Type) (start numThreads : Nat) : State ε :=
  { current := start
    lastException := none
    mutexOwner := none
    threads := spawnThreads ε numThreads
    calls := []
    acquired := [] }

/-- Replace the position of thread `t`. -/
def setPc {ε : Type} (s : State ε) (t : Nat) (w : Worker ε) (pc : Pc ε) : State ε :=
  { s with threads := s.threads.set t ⟨w.threadId, pc⟩ }

/-- One action of the thread at position `t` (lines 31-52). -/
def step {ε : Type} (fn : Callable ε) (endIdx : Nat) (s : State ε) (t : Nat) : State ε :=
  match s.threads[t]? with
  | none => s
  | some w =>
    match w.pc with
    | Pc.fetch =>
      -- size_t id = current.fetch_add(1); if (id >= end) break;
      let id := s.current
      let s1 := { s with current := (s.current + 1) % SIZE_MOD }
      if id ≥ endIdx then setPc s1 t w Pc.done else setPc s1 t w (Pc.call id)
    | Pc.call id =>
      -- fn(id, threadId) is entered
      setPc { s with calls := s.calls ++ [⟨some t, id, w.threadId⟩] } t w (Pc.running id)
    | Pc.running id =>
      -- fn(id, threadId) returns or throws
      match fn id w.threadId with
      | none => setPc s t w Pc.fetch
      | some e => setPc s t w (Pc.caught e)
    | Pc.caught e =>
      -- std::unique_lock<std::mutex> lastExcepLock(lastExceptMutex);
      match s.mutexOwner with
      | none =>
        setPc { s with mutexOwner := some t, acquired := s.acquired ++ [(t, e)] } t w
          (Pc.locked e)
      | some _ => s
    | Pc.locked e =>
      -- lastException = std::current_exception();
      setPc { s with lastException := some e } t w Pc.store
    | Pc.store =>
      -- current = end;
      setPc { s with current := endIdx } t w Pc.unlock
    | Pc.unlock =>
      -- break; (the lock is released, the lambda returns)
      setPc { s with mutexOwner := none } t w Pc.done
    | Pc.done => s

/-- Run the threads along a schedule. -/
def run {ε : Type} (fn : Callable ε) (endIdx : Nat) (s : State ε) (sched : List Nat) :
    State ε :=
  sched.foldl (step fn endIdx) s

/-- The lambda of thread `w` has returned. -/
def isDone {ε : Type} : Pc ε → Bool
  | Pc.done => true
  | _ => false

/-- Lines 55-57: every `join` has returned. -/
def allJoined {ε : Type} (s : State ε) : Bool :=
  s.threads.all (fun w => isDone w.pc)

/-- The function `ParallelFor` (lines 11-62). In the multi-thread branch the
threads run along `sched`; the result is `none` when `sched` ends before every
thread has returned (the joins of lines 55-57 are still blocked). -/
def ParallelFor {ε : Type} (hw : Nat) (sched : List Nat) (start endIdx numThreads : Nat)
    (fn : Callable ε) : Option (Outcome ε) :=
  let numThreads := resolveThreads hw numThreads
  if numThreads = 1 then
    some (forLoop fn endIdx start [])
  else
    let s := run fn endIdx (initState ε start numThreads) sched
    if allJoined s then some ⟨s.lastException, s.calls, numThreads⟩ else none

/-! ## Predicates and invariants of the transition system -/

/-- The positions at which a thread holds `lastExceptMutex`. -/
def holdsMutex {ε : Type} : Pc ε → Bool
  | Pc.locked _ => true
  | Pc.store => true
  | Pc.unlock => true
  | _ => false

/-- The invocation history as the list of indices handed to `fn`. -/
def indices (calls : List Event) : List Nat :=
  calls.map Event.index

/-- Facts that hold in every reachable state of the multi-thread branch, for
every range and every callable. -/
structure Inv {ε : Type} (n : Nat) (s : State ε) : Prop where
  len : s.threads.length = n
  ids : ∀ (p : Nat) (w : Worker ε), s.threads[p]? = some w → w.threadId = p
  events : ∀ ev ∈ s.calls, ∃ p, ev.thread = some p ∧ ev.workerId = p ∧ p < n
  owner : ∀ (p : Nat) (w : Worker ε), s.threads[p]? = some w → holdsMutex w.pc = true →
    s.mutexOwner = some p
  pending : ∀ (p : Nat) (w : Worker ε) (e : ε), s.threads[p]? = some w → w.pc = Pc.locked e →
    s.acquired.getLast? = some (p, e)
  recorded : (∀ (p : Nat) (w : Worker ε) (e : ε), s.threads[p]? = some w → w.pc ≠ Pc.locked e) →
    s.lastException = s.acquired.getLast?.map Prod.snd

/-- Number of threads whose lambda has returned. -/
def doneCount {ε : Type} (s : State ε) : Nat :=
  s.threads.countP (fun w => isDone w.pc)

/-- With `start ≤ end` and `end + n < 2^64` (the counter cannot wrap): the
cursor stays between `start` and `end` plus the number of finished threads,
and the indices claimed so far are in range and pairwise distinct. -/
structure Bounded {ε : Type} (start endIdx : Nat) (s : State ε) : Prop where
  lo : start ≤ s.current
  hi : s.current ≤ endIdx + doneCount s
  callsIn : ∀ ev ∈ s.calls, start ≤ ev.index ∧ ev.index < endIdx ∧ ev.index < s.current
  pendIn : ∀ (p : Nat) (w : Worker ε) (i : Nat), s.threads[p]? = some w → w.pc = Pc.call i →
    start ≤ i ∧ i < endIdx ∧ i < s.current ∧ i ∉ indices s.calls
  pendDistinct : ∀ (p q : Nat) (w w' : Worker ε) (i : Nat), s.threads[p]? = some w →
    s.threads[q]? = some w' → w.pc = Pc.call i → w'.pc = Pc.call i → p = q
  nodup : (indices s.calls).Nodup

/-- The history entry of the `j`-th iteration of the loop that starts at `id`. -/
def loopEvent (id j : Nat) : Event := ⟨none, id + j, 0⟩

/-- With `end < start` and `start + n < 2^64`: every thread is at its first
fetch or has returned, the cursor is `start` plus at most the number of
returned threads, and nothing was invoked or recorded. -/
structure Inverted {ε : Type} (start : Nat) (s : State ε) : Prop where
  lo : start ≤ s.current
  hi : s.current ≤ start + doneCount s
  pcs : ∀ (p : Nat) (w : Worker ε), s.threads[p]? = some w → w.pc = Pc.fetch ∨ w.pc = Pc.done
  noCalls : s.calls = []
  noError : s.lastException = none

/-- The state the multi-thread branch reaches along `sched`. -/
def reach {ε : Type} (fn : Callable ε) (start endIdx n : Nat) (sched : List Nat) : State ε :=
  run fn endIdx (initState ε start n) sched

/-- What holds from the state `base` on, once the cursor has reached `end`: the
cursor stays at or above `end`, every index still waiting to be passed to `fn`
was already waiting in `base`, and every invocation entered since `base` is of
such an index. -/
structure After {ε : Type} (endIdx : Nat) (base s : State ε) : Prop where
  cur : endIdx ≤ s.current
  pend : ∀ (p : Nat) (w : Worker ε) (i : Nat), s.threads[p]? = some w → w.pc = Pc.call i →
    ∃ w0, base.threads[p]? = some w0 ∧ w0.pc = Pc.call i
  later : ∃ later, s.calls = base.calls ++ later ∧
    ∀ ev ∈ later, ∃ p w0, ev.thread = some p ∧ base.threads[p]? = some w0 ∧
      w0.pc = Pc.call ev.index

/-- Thread `t` can make a transition: it exists, has not returned, and is not
waiting for a mutex that another thread holds. -/
def enabled {ε : Type} (s : State ε) (t : Nat) : Bool :=
  match s.threads[t]? with
  | none => false
  | some w =>
    match w.pc with
    | Pc.done => false
    | Pc.caught _ => s.mutexOwner.isNone
    | _ => true

/-- Number of transitions a thread at this position can still make without
claiming another index. -/
def weight {ε : Type} : Pc ε → Nat
  | Pc.fetch => 1
  | Pc.call _ => 6
  | Pc.running _ => 5
  | Pc.caught _ => 4
  | Pc.locked _ => 3
  | Pc.store => 2
  | Pc.unlock => 1
  | Pc.done => 0

/-- Sum of the threads' weights. -/
def weightSum {ε : Type} (s : State ε) : Nat :=
  (s.threads.map (fun w => weight w.pc)).sum

/-- A bound on the number of transitions still to come: six for every index
below `end` not yet fetched, plus the threads' weights. -/
def potential {ε : Type} (endIdx : Nat) (s : State ε) : Nat :=
  6 * (endIdx - s.current) + weightSum s

/-- The mutex is owned only by a thread that stands between lines 42 and 50. -/
def Held {ε : Type} (s : State ε) : Prop :=
  ∀ q, s.mutexOwner = some q → ∃ w, s.threads[q]? = some w ∧ holdsMutex w.pc = true

/-- The positions of the exception handler (lines 41-50). -/
def inHandler {ε : Type} : Pc ε → Bool
  | Pc.caught _ => true
  | Pc.locked _ => true
  | Pc.store => true
  | Pc.unlock => true
  | _ => false

/-- When `fn` never throws and the counter cannot wrap: no thread is in the
handler, no error is recorded, every index of the range below the cursor has
been passed to `fn` or is held by a thread about to do so, and a thread returns
only once the cursor has reached `end`. -/
structure Covering {ε : Type} (start endIdx : Nat) (s : State ε) : Prop where
  pcs : ∀ (p : Nat) (w : Worker ε), s.threads[p]? = some w → inHandler w.pc = false
  noError : s.lastException = none
  cover : ∀ i, start ≤ i → i < s.current → i < endIdx →
    i ∈ indices s.calls ∨ ∃ (p : Nat) (w : Worker ε), s.threads[p]? = some w ∧ w.pc = Pc.call i
  doneImp : ∀ (p : Nat) (w : Worker ε), s.threads[p]? = some w → w.pc = Pc.done →
    endIdx ≤ s.current

/-- When `fn` throws at index `k` and nowhere else, and the counter cannot wrap:
every error in flight or recorded is an error of `fn` at `k`; a thread inside
`fn` or in the handler has had its index entered in the history; once `k` is in
the history, its thread is inside `fn`, waits for the mutex, or the mutex has
been acquired; a thread has left the loop only after the cursor reached `end`;
and once the cursor has passed `k`, index `k` is in the history or held by a
thread about to call `fn`. -/
structure OneFailure {ε : Type} (fn : Callable ε) (k endIdx : Nat) (s : State ε) : Prop where
  errs : ∀ (p : Nat) (w : Worker ε) (e : ε), s.threads[p]? = some w →
    (w.pc = Pc.caught e ∨ w.pc = Pc.locked e) → ∃ wid, fn k wid = some e
  acq : ∀ pe ∈ s.acquired, ∃ wid, fn k wid = some pe.2
  runs : ∀ (p : Nat) (w : Worker ε) (i : Nat), s.threads[p]? = some w → w.pc = Pc.running i →
    i ∈ indices s.calls
  handler : ∀ (p : Nat) (w : Worker ε), s.threads[p]? = some w → inHandler w.pc = true →
    k ∈ indices s.calls
  thrown : k ∈ indices s.calls →
    (∃ (p : Nat) (w : Worker ε), s.threads[p]? = some w ∧
      (w.pc = Pc.running k ∨ ∃ e, w.pc = Pc.caught e)) ∨ s.acquired ≠ []
  late : ∀ (p : Nat) (w : Worker ε), s.threads[p]? = some w →
    (w.pc = Pc.unlock ∨ w.pc = Pc.done) → endIdx ≤ s.current
  coverK : k < s.current →
    k ∈ indices s.calls ∨ ∃ (p : Nat) (w : Worker ε), s.threads[p]? = some w ∧ w.pc = Pc.call k

/-! ## Callables of the concrete runs -/

/-- A callable that returns normally on every index. -/
def neverThrows : Callable Nat := fun _ _ => none

/-- A callable that throws the error `e` at index `k` and returns normally
elsewhere. -/
def throwsAt (k e : Nat) : Callable Nat := fun i _ => if i = k then some e else none

/-- A callable that throws at every index; the error is `10 + index`. -/
def alwaysThrows : Callable Nat := fun i _ => some (10 + i)

/-! ## Basic facts about the transition system -/

theorem setPc_get {ε : Type} {s : State ε} {t : Nat} {w : Worker ε} (pc : Pc ε)
    (h : s.threads[t]? = some w) (p : Nat) :
    (setPc s t w pc).threads[p]? = if p = t then some ⟨w.threadId, pc⟩ else s.threads[p]? := by
  have hlt : t < s.threads.length := by
    rcases Nat.lt_or_ge t s.threads.length with h1 | h1
    · exact h1
    · rw [List.getElem?_eq_none h1] at h; cases h
  simp only [setPc, List.getElem?_set]
  by_cases hp : p = t
  · subst hp; simp [hlt]
  · have : ¬ t = p := fun h => hp h.symm
    simp [hp, this]

@[simp] theorem setPc_current {ε : Type} (s : State ε) (t : Nat) (w : Worker ε) (pc : Pc ε) :
    (setPc s t w pc).current = s.current := rfl

@[simp] theorem setPc_lastException {ε : Type} (s : State ε) (t : Nat) (w : Worker ε)
    (pc : Pc ε) : (setPc s t w pc).lastException = s.lastException := rfl

@[simp] theorem setPc_mutexOwner {ε : Type} (s : State ε) (t : Nat) (w : Worker ε)
    (pc : Pc ε) : (setPc s t w pc).mutexOwner = s.mutexOwner := rfl

@[simp] theorem setPc_calls {ε : Type} (s : State ε) (t : Nat) (w : Worker ε) (pc : Pc ε) :
    (setPc s t w pc).calls = s.calls := rfl

@[simp] theorem setPc_acquired {ε : Type} (s : State ε) (t : Nat) (w : Worker ε) (pc : Pc ε) :
    (setPc s t w pc).acquired = s.acquired := rfl

@[simp] theorem setPc_length {ε : Type} (s : State ε) (t : Nat) (w : Worker ε) (pc : Pc ε) :
    (setPc s t w pc).threads.length = s.threads.length := by
  simp [setPc]

/-- Case analysis on one transition: the schedule entry either changes nothing
(no such thread, a finished thread, a thread waiting for the held mutex) or it
performs one of the ten actions of the lambda. -/
theorem step_elim {ε : Type} {motive : State ε → Prop} (fn : Callable ε) (endIdx : Nat)
    (s : State ε) (t : Nat)
    (hidle : motive s)
    (hexit : ∀ w, s.threads[t]? = some w → w.pc = Pc.fetch → endIdx ≤ s.current →
      motive (setPc { s with current := (s.current + 1) % SIZE_MOD } t w Pc.done))
    (hclaim : ∀ w, s.threads[t]? = some w → w.pc = Pc.fetch → s.current < endIdx →
      motive (setPc { s with current := (s.current + 1) % SIZE_MOD } t w (Pc.call s.current)))
    (henter : ∀ w id, s.threads[t]? = some w → w.pc = Pc.call id →
      motive (setPc { s with calls := s.calls ++ [⟨some t, id, w.threadId⟩] } t w
        (Pc.running id)))
    (hreturn : ∀ w id, s.threads[t]? = some w → w.pc = Pc.running id →
      fn id w.threadId = none → motive (setPc s t w Pc.fetch))
    (hthrow : ∀ w id e, s.threads[t]? = some w → w.pc = Pc.running id →
      fn id w.threadId = some e → motive (setPc s t w (Pc.caught e)))
    (hlock : ∀ w e, s.threads[t]? = some w → w.pc = Pc.caught e → s.mutexOwner = none →
      motive (setPc { s with mutexOwner := some t, acquired := s.acquired ++ [(t, e)] } t w
        (Pc.locked e)))
    (hrecord : ∀ w e, s.threads[t]? = some w → w.pc = Pc.locked e →
      motive (setPc { s with lastException := some e } t w Pc.store))
    (hstore : ∀ w, s.threads[t]? = some w → w.pc = Pc.store →
      motive (setPc { s with current := endIdx } t w Pc.unlock))
    (hunlock : ∀ w, s.threads[t]? = some w → w.pc = Pc.unlock →
      motive (setPc { s with mutexOwner := none } t w Pc.done)) :
    motive (step fn endIdx s t) := by
  unfold step
  cases hw : s.threads[t]? with
  | none => exact hidle
  | some w =>
    simp only
    cases hpc : w.pc with
    | fetch =>
      simp only
      by_cases hc : s.current ≥ endIdx
      · rw [if_pos hc]; exact hexit w hw hpc hc
      · rw [if_neg hc]; exact hclaim w hw hpc (Nat.lt_of_not_ge hc)
    | call id => exact henter w id hw hpc
    | running id =>
      simp only
      cases hf : fn id w.threadId with
      | none => exact hreturn w id hw hpc hf
      | some e => exact hthrow w id e hw hpc hf
    | caught e =>
      simp only
      cases ho : s.mutexOwner with
      | none =>
        have h := hlock w e hw hpc ho
        simp only [ho] at h
        exact h
      | some o => exact hidle
    | locked e => exact hrecord w e hw hpc
    | store => exact hstore w hw hpc
    | unlock => exact hunlock w hw hpc
    | done => exact hidle

theorem run_nil {ε : Type} (fn : Callable ε) (endIdx : Nat) (s : State ε) :
    run fn endIdx s [] = s := rfl

theorem run_cons {ε : Type} (fn : Callable ε) (endIdx : Nat) (s : State ε) (t : Nat)
    (sched : List Nat) :
    run fn endIdx s (t :: sched) = run fn endIdx (step fn endIdx s t) sched := rfl

theorem run_append {ε : Type} (fn : Callable ε) (endIdx : Nat) (s : State ε)
    (sched1 sched2 : List Nat) :
    run fn endIdx s (sched1 ++ sched2) = run fn endIdx (run fn endIdx s sched1) sched2 := by
  simp [run, List.foldl_append]

theorem run_snoc {ε : Type} (fn : Callable ε) (endIdx : Nat) (s : State ε) (t : Nat)
    (sched : List Nat) :
    run fn endIdx s (sched ++ [t]) = step fn endIdx (run fn endIdx s sched) t := by
  simp [run, List.foldl_append]

/-- A property that holds initially and is kept by every transition holds
along every schedule. -/
theorem run_invariant {ε : Type} (fn : Callable ε) (endIdx : Nat) (P : State ε → Prop)
    (hstep : ∀ s t, P s → P (step fn endIdx s t)) (s : State ε) (h0 : P s)
    (sched : List Nat) : P (run fn endIdx s sched) := by
  induction sched generalizing s with
  | nil => exact h0
  | cons t rest ih => exact ih (step fn endIdx s t) (hstep s t h0)

theorem spawnThreads_get (ε : Type) (n p : Nat) :
    (spawnThreads ε n)[p]? = if p < n then some ⟨p, Pc.fetch⟩ else none := by
  unfold spawnThreads
  rw [List.getElem?_map]
  by_cases h : p < n
  · simp [h, List.getElem?_range h]
  · have h1 : (List.range n).length ≤ p := by simp; omega
    simp [h, List.getElem?_eq_none h1]

theorem spawnThreads_length (ε : Type) (n : Nat) : (spawnThreads ε n).length = n := by
  simp [spawnThreads]

/-! ## Thread identities, the invocation history and the mutex -/

theorem inv_init (ε : Type) (start n : Nat) : Inv n (initState ε start n) := by
  refine ⟨spawnThreads_length ε n, ?_, ?_, ?_, ?_, ?_⟩
  · intro p w h
    simp only [initState, spawnThreads_get] at h
    split at h
    · cases h; rfl
    · cases h
  · intro ev h; simp [initState] at h
  · intro p w h hm
    simp only [initState, spawnThreads_get] at h
    split at h
    · cases h; simp [holdsMutex] at hm
    · cases h
  · intro p w e h hpc
    simp only [initState, spawnThreads_get] at h
    split at h
    · cases h; cases hpc
    · cases h
  · intro _; rfl

theorem setPc_cases {ε : Type} {s0 s : State ε} {t p : Nat} {w w' : Worker ε} {pc : Pc ε}
    (hp : (setPc s t w pc).threads[p]? = some w') (h : s0.threads[t]? = some w)
    (hs : s.threads = s0.threads) :
    (p = t ∧ w' = ⟨w.threadId, pc⟩) ∨ (p ≠ t ∧ s0.threads[p]? = some w') := by
  rw [← hs] at h
  rw [setPc_get pc h p] at hp
  by_cases hpt : p = t
  · rw [if_pos hpt] at hp
    exact Or.inl ⟨hpt, (Option.some.inj hp).symm⟩
  · rw [if_neg hpt, hs] at hp
    exact Or.inr ⟨hpt, hp⟩

theorem setPc_other {ε : Type} {s0 : State ε} (s : State ε) {t p : Nat} {w w' : Worker ε}
    (pc : Pc ε) (hw' : s0.threads[p]? = some w') (hpt : p ≠ t) (h : s0.threads[t]? = some w)
    (hs : s.threads = s0.threads) : (setPc s t w pc).threads[p]? = some w' := by
  rw [← hs] at h hw'
  rw [setPc_get pc h p, if_neg hpt]
  exact hw'

theorem setPc_self {ε : Type} {s0 : State ε} (s : State ε) {t : Nat} {w : Worker ε}
    (pc : Pc ε) (h : s0.threads[t]? = some w) (hs : s.threads = s0.threads) :
    (setPc s t w pc).threads[t]? = some ⟨w.threadId, pc⟩ := by
  rw [← hs] at h
  rw [setPc_get pc h t, if_pos rfl]

theorem inv_step {ε : Type} (fn : Callable ε) (endIdx n : Nat) (s : State ε) (t : Nat)
    (h : Inv n s) : Inv n (step fn endIdx s t) := by
  have hlt : ∀ w, s.threads[t]? = some w → t < n := by
    intro w hw
    rcases Nat.lt_or_ge t s.threads.length with h1 | h1
    · rw [← h.len]; exact h1
    · rw [List.getElem?_eq_none h1] at hw; cases hw
  -- a thread other than `t` that holds the mutex excludes `t` from holding it
  have excl : ∀ (w : Worker ε) (p : Nat) (w' : Worker ε), s.threads[t]? = some w →
      holdsMutex w.pc = true → p ≠ t → s.threads[p]? = some w' → holdsMutex w'.pc = true →
      False := by
    intro w p w' hw hm hne hp hm'
    have h1 := h.owner t w hw hm
    have h2 := h.owner p w' hp hm'
    rw [h1] at h2
    exact hne (Option.some.inj h2).symm
  apply step_elim fn endIdx s t
  · exact h
  · -- exit
    intro w hw hpc hc
    refine ⟨by simpa using h.len, ?_, ?_, ?_, ?_, ?_⟩
    · intro p w' hp
      rcases setPc_cases hp hw rfl with ⟨rfl, rfl⟩ | ⟨_, hp'⟩
      · exact h.ids _ w hw
      · exact h.ids p w' hp'
    · exact h.events
    · intro p w' hp hm
      rcases setPc_cases hp hw rfl with ⟨rfl, rfl⟩ | ⟨_, hp'⟩
      · simp [holdsMutex] at hm
      · exact h.owner p w' hp' hm
    · intro p w' e hp hl
      rcases setPc_cases hp hw rfl with ⟨rfl, rfl⟩ | ⟨_, hp'⟩
      · cases hl
      · exact h.pending p w' e hp' hl
    · intro hno
      apply h.recorded
      intro p w' e hp hl
      by_cases hpt : p = t
      · subst hpt; rw [hw] at hp; cases hp; rw [hpc] at hl; cases hl
      · exact hno p w' e (setPc_other _ _ hp hpt hw rfl) hl
  · -- claim
    intro w hw hpc hc
    refine ⟨by simpa using h.len, ?_, ?_, ?_, ?_, ?_⟩
    · intro p w' hp
      rcases setPc_cases hp hw rfl with ⟨rfl, rfl⟩ | ⟨_, hp'⟩
      · exact h.ids _ w hw
      · exact h.ids p w' hp'
    · exact h.events
    · intro p w' hp hm
      rcases setPc_cases hp hw rfl with ⟨rfl, rfl⟩ | ⟨_, hp'⟩
      · simp [holdsMutex] at hm
      · exact h.owner p w' hp' hm
    · intro p w' e hp hl
      rcases setPc_cases hp hw rfl with ⟨rfl, rfl⟩ | ⟨_, hp'⟩
      · cases hl
      · exact h.pending p w' e hp' hl
    · intro hno
      apply h.recorded
      intro p w' e hp hl
      by_cases hpt : p = t
      · subst hpt; rw [hw] at hp; cases hp; rw [hpc] at hl; cases hl
      · exact hno p w' e (setPc_other _ _ hp hpt hw rfl) hl
  · -- enter
    intro w id hw hpc
    refine ⟨by simpa using h.len, ?_, ?_, ?_, ?_, ?_⟩
    · intro p w' hp
      rcases setPc_cases hp hw rfl with ⟨rfl, rfl⟩ | ⟨_, hp'⟩
      · exact h.ids _ w hw
      · exact h.ids p w' hp'
    · intro ev hev
      simp only [setPc_calls, List.mem_append, List.mem_singleton] at hev
      rcases hev with hev | rfl
      · exact h.events ev hev
      · exact ⟨t, rfl, h.ids t w hw, hlt w hw⟩
    · intro p w' hp hm
      rcases setPc_cases hp hw rfl with ⟨rfl, rfl⟩ | ⟨_, hp'⟩
      · simp [holdsMutex] at hm
      · exact h.owner p w' hp' hm
    · intro p w' e hp hl
      rcases setPc_cases hp hw rfl with ⟨rfl, rfl⟩ | ⟨_, hp'⟩
      · cases hl
      · exact h.pending p w' e hp' hl
    · intro hno
      apply h.recorded
      intro p w' e hp hl
      by_cases hpt : p = t
      · subst hpt; rw [hw] at hp; cases hp; rw [hpc] at hl; cases hl
      · exact hno p w' e (setPc_other _ _ hp hpt hw rfl) hl
  · -- return
    intro w id hw hpc _
    refine ⟨by simpa using h.len, ?_, ?_, ?_, ?_, ?_⟩
    · intro p w' hp
      rcases setPc_cases hp hw rfl with ⟨rfl, rfl⟩ | ⟨_, hp'⟩
      · exact h.ids _ w hw
      · exact h.ids p w' hp'
    · exact h.events
    · intro p w' hp hm
      rcases setPc_cases hp hw rfl with ⟨rfl, rfl⟩ | ⟨_, hp'⟩
      · simp [holdsMutex] at hm
      · exact h.owner p w' hp' hm
    · intro p w' e hp hl
      rcases setPc_cases hp hw rfl with ⟨rfl, rfl⟩ | ⟨_, hp'⟩
      · cases hl
      · exact h.pending p w' e hp' hl
    · intro hno
      apply h.recorded
      intro p w' e hp hl
      by_cases hpt : p = t
      · subst hpt; rw [hw] at hp; cases hp; rw [hpc] at hl; cases hl
      · exact hno p w' e (setPc_other _ _ hp hpt hw rfl) hl
  · -- throw
    intro w id e0 hw hpc _
    refine ⟨by simpa using h.len, ?_, ?_, ?_, ?_, ?_⟩
    · intro p w' hp
      rcases setPc_cases hp hw rfl with ⟨rfl, rfl⟩ | ⟨_, hp'⟩
      · exact h.ids _ w hw
      · exact h.ids p w' hp'
    · exact h.events
    · intro p w' hp hm
      rcases setPc_cases hp hw rfl with ⟨rfl, rfl⟩ | ⟨_, hp'⟩
      · simp [holdsMutex] at hm
      · exact h.owner p w' hp' hm
    · intro p w' e hp hl
      rcases setPc_cases hp hw rfl with ⟨rfl, rfl⟩ | ⟨_, hp'⟩
      · cases hl
      · exact h.pending p w' e hp' hl
    · intro hno
      apply h.recorded
      intro p w' e hp hl
      by_cases hpt : p = t
      · subst hpt; rw [hw] at hp; cases hp; rw [hpc] at hl; cases hl
      · exact hno p w' e (setPc_other _ _ hp hpt hw rfl) hl
  · -- lock
    intro w e0 hw hpc hfree
    have nobody : ∀ (p : Nat) (w' : Worker ε), s.threads[p]? = some w' →
        holdsMutex w'.pc = true → False := by
      intro p w' hp hm
      have := h.owner p w' hp hm
      rw [hfree] at this; cases this
    refine ⟨by simpa using h.len, ?_, ?_, ?_, ?_, ?_⟩
    · intro p w' hp
      rcases setPc_cases hp hw rfl with ⟨rfl, rfl⟩ | ⟨_, hp'⟩
      · exact h.ids _ w hw
      · exact h.ids p w' hp'
    · exact h.events
    · intro p w' hp hm
      rcases setPc_cases hp hw rfl with ⟨rfl, rfl⟩ | ⟨_, hp'⟩
      · rfl
      · exact (nobody p w' hp' hm).elim
    · intro p w' e hp hl
      rcases setPc_cases hp hw rfl with ⟨rfl, rfl⟩ | ⟨_, hp'⟩
      · cases hl
        simp [List.getLast?_concat]
      · exact (nobody p w' hp' (by rw [hl]; rfl)).elim
    · intro hno
      exact (hno t _ e0 (setPc_self _ _ hw rfl) rfl).elim
  · -- record
    intro w e0 hw hpc
    have hm : holdsMutex w.pc = true := by rw [hpc]; rfl
    refine ⟨by simpa using h.len, ?_, ?_, ?_, ?_, ?_⟩
    · intro p w' hp
      rcases setPc_cases hp hw rfl with ⟨rfl, rfl⟩ | ⟨_, hp'⟩
      · exact h.ids _ w hw
      · exact h.ids p w' hp'
    · exact h.events
    · intro p w' hp hm'
      rcases setPc_cases hp hw rfl with ⟨rfl, rfl⟩ | ⟨_, hp'⟩
      · exact h.owner _ w hw hm
      · exact h.owner p w' hp' hm'
    · intro p w' e hp hl
      rcases setPc_cases hp hw rfl with ⟨rfl, rfl⟩ | ⟨hne, hp'⟩
      · cases hl
      · exact (excl w p w' hw hm hne hp' (by rw [hl]; rfl)).elim
    · intro _
      have := h.pending t w e0 hw hpc
      simp [this]
  · -- store
    intro w hw hpc
    have hm : holdsMutex w.pc = true := by rw [hpc]; rfl
    refine ⟨by simpa using h.len, ?_, ?_, ?_, ?_, ?_⟩
    · intro p w' hp
      rcases setPc_cases hp hw rfl with ⟨rfl, rfl⟩ | ⟨_, hp'⟩
      · exact h.ids _ w hw
      · exact h.ids p w' hp'
    · exact h.events
    · intro p w' hp hm'
      rcases setPc_cases hp hw rfl with ⟨rfl, rfl⟩ | ⟨_, hp'⟩
      · exact h.owner _ w hw hm
      · exact h.owner p w' hp' hm'
    · intro p w' e hp hl
      rcases setPc_cases hp hw rfl with ⟨rfl, rfl⟩ | ⟨hne, hp'⟩
      · cases hl
      · exact h.pending p w' e hp' hl
    · intro hno
      apply h.recorded
      intro p w' e hp hl
      by_cases hpt : p = t
      · subst hpt; rw [hw] at hp; cases hp; rw [hpc] at hl; cases hl
      · exact hno p w' e (setPc_other _ _ hp hpt hw rfl) hl
  · -- unlock
    intro w hw hpc
    have hm : holdsMutex w.pc = true := by rw [hpc]; rfl
    refine ⟨by simpa using h.len, ?_, ?_, ?_, ?_, ?_⟩
    · intro p w' hp
      rcases setPc_cases hp hw rfl with ⟨rfl, rfl⟩ | ⟨_, hp'⟩
      · exact h.ids _ w hw
      · exact h.ids p w' hp'
    · exact h.events
    · intro p w' hp hm'
      rcases setPc_cases hp hw rfl with ⟨rfl, rfl⟩ | ⟨hne, hp'⟩
      · simp [holdsMutex] at hm'
      · exact (excl w p w' hw hm hne hp' hm').elim
    · intro p w' e hp hl
      rcases setPc_cases hp hw rfl with ⟨rfl, rfl⟩ | ⟨hne, hp'⟩
      · cases hl
      · exact h.pending p w' e hp' hl
    · intro hno
      apply h.recorded
      intro p w' e hp hl
      by_cases hpt : p = t
      · subst hpt; rw [hw] at hp; cases hp; rw [hpc] at hl; cases hl
      · exact hno p w' e (setPc_other _ _ hp hpt hw rfl) hl

theorem inv_run {ε : Type} (fn : Callable ε) (start endIdx n : Nat) (sched : List Nat) :
    Inv n (run fn endIdx (initState ε start n) sched) :=
  run_invariant fn endIdx (Inv n) (fun s t h => inv_step fn endIdx n s t h) _
    (inv_init ε start n) sched

/-! ## The cursor and the claimed indices when the counter cannot wrap -/

theorem doneCount_le {ε : Type} (s : State ε) : doneCount s ≤ s.threads.length :=
  List.countP_le_length _

theorem doneCount_setPc {ε : Type} {s0 : State ε} (s : State ε) {t : Nat} {w : Worker ε}
    (pc : Pc ε) (hw : s0.threads[t]? = some w) (hs : s.threads = s0.threads)
    (hnd : isDone w.pc = false) :
    doneCount (setPc s t w pc) = doneCount s0 + if isDone pc = true then 1 else 0 := by
  obtain ⟨hlt, hget⟩ := List.getElem?_eq_some.mp hw
  unfold doneCount setPc
  simp only [hs]
  rw [List.countP_set _ _ _ _ hlt]
  simp [hget, hnd]

theorem doneCount_upd {ε : Type} (s0 : State ε) (c : Nat) (x : Option ε) (o : Option Nat)
    (cs : List Event) (a : List (Nat × ε)) {t : Nat} {w : Worker ε} (pc : Pc ε)
    (hw : s0.threads[t]? = some w) (hnd : isDone w.pc = false) :
    doneCount (setPc ⟨c, x, o, s0.threads, cs, a⟩ t w pc) =
      doneCount s0 + if isDone pc = true then 1 else 0 :=
  doneCount_setPc _ pc hw rfl hnd

theorem bounded_init (ε : Type) (start endIdx n : Nat) (hse : start ≤ endIdx) :
    Bounded start endIdx (initState ε start n) := by
  refine ⟨Nat.le_refl _, ?_, ?_, ?_, ?_, ?_⟩
  · exact Nat.le_trans hse (Nat.le_add_right _ _)
  · intro ev h; simp [initState] at h
  · intro p w i h hpc
    simp only [initState, spawnThreads_get] at h
    split at h
    · cases h; cases hpc
    · cases h
  · intro p q w w' i h _ hpc _
    simp only [initState, spawnThreads_get] at h
    split at h
    · cases h; cases hpc
    · cases h
  · simp [initState, indices]

/-- A transition that leaves the cursor and the history alone and does not
move its thread to `call` keeps `Bounded`. -/
theorem bounded_quiet {ε : Type} {start endIdx : Nat} {s0 : State ε} (s : State ε) {t : Nat}
    {w : Worker ε} (pc : Pc ε) (h : Bounded start endIdx s0) (hw : s0.threads[t]? = some w)
    (hs : s.threads = s0.threads) (hcur : s.current = s0.current) (hcalls : s.calls = s0.calls)
    (hpc : ∀ i, pc ≠ Pc.call i) (hnd : isDone w.pc = false) :
    Bounded start endIdx (setPc s t w pc) := by
  refine ⟨?_, ?_, ?_, ?_, ?_, ?_⟩
  · rw [setPc_current, hcur]; exact h.lo
  · rw [setPc_current, hcur, doneCount_setPc s pc hw hs hnd]
    have := h.hi
    omega
  · intro ev hev
    rw [setPc_calls, hcalls] at hev
    rw [setPc_current, hcur]
    exact h.callsIn ev hev
  · intro p w' i hp hi
    rw [setPc_current, hcur, setPc_calls, hcalls]
    rcases setPc_cases hp hw hs with ⟨rfl, rfl⟩ | ⟨_, hp'⟩
    · exact (hpc i hi).elim
    · exact h.pendIn p w' i hp' hi
  · intro p q w1 w2 i hp hq h1 h2
    rcases setPc_cases hp hw hs with ⟨rfl, rfl⟩ | ⟨_, hp'⟩
    · exact (hpc i h1).elim
    · rcases setPc_cases hq hw hs with ⟨rfl, rfl⟩ | ⟨_, hq'⟩
      · exact (hpc i h2).elim
      · exact h.pendDistinct p q w1 w2 i hp' hq' h1 h2
  · rw [setPc_calls, hcalls]; exact h.nodup

theorem bounded_step {ε : Type} (fn : Callable ε) (start endIdx n : Nat)
    (hse : start ≤ endIdx) (hnw : endIdx + n < SIZE_MOD) (s : State ε) (t : Nat)
    (hlen : s.threads.length = n) (h : Bounded start endIdx s) :
    Bounded start endIdx (step fn endIdx s t) := by
  -- a thread that has not returned keeps the count of finished threads below `n`
  have room : ∀ w, s.threads[t]? = some w → isDone w.pc = false → doneCount s + 1 ≤ n := by
    intro w hw hnd
    have h1 := doneCount_setPc s Pc.done hw rfl hnd
    have h2 := doneCount_le (setPc s t w Pc.done)
    rw [setPc_length, hlen] at h2
    simp only [isDone, if_true] at h1
    omega
  apply step_elim fn endIdx s t
  · exact h
  · -- exit
    intro w hw hpc hc
    have hnd : isDone w.pc = false := by rw [hpc]; rfl
    have hroom := room w hw hnd
    have hhi := h.hi
    have hmod : (s.current + 1) % SIZE_MOD = s.current + 1 := Nat.mod_eq_of_lt (by omega)
    have hlo := h.lo
    refine ⟨?_, ?_, ?_, ?_, ?_, ?_⟩
    · simp only [setPc_current, hmod]; omega
    · rw [doneCount_upd s _ _ _ _ _ _ hw hnd]
      simp only [setPc_current, hmod, isDone, if_true]; omega
    · intro ev hev
      have := h.callsIn ev hev
      simp only [setPc_current, hmod]; omega
    · intro p w' i hp hi
      rcases setPc_cases hp hw rfl with ⟨rfl, rfl⟩ | ⟨_, hp'⟩
      · cases hi
      · have := h.pendIn p w' i hp' hi
        simp only [setPc_current, hmod, setPc_calls]
        exact ⟨this.1, this.2.1, by omega, this.2.2.2⟩
    · intro p q w1 w2 i hp hq h1 h2
      rcases setPc_cases hp hw rfl with ⟨rfl, rfl⟩ | ⟨_, hp'⟩
      · cases h1
      · rcases setPc_cases hq hw rfl with ⟨rfl, rfl⟩ | ⟨_, hq'⟩
        · cases h2
        · exact h.pendDistinct p q w1 w2 i hp' hq' h1 h2
    · exact h.nodup
  · -- claim
    intro w hw hpc hc
    have hnd : isDone w.pc = false := by rw [hpc]; rfl
    have hmod : (s.current + 1) % SIZE_MOD = s.current + 1 := Nat.mod_eq_of_lt (by omega)
    have hlo := h.lo
    have fresh : ∀ (p : Nat) (w' : Worker ε), s.threads[p]? = some w' →
        w'.pc = Pc.call s.current → False := by
      intro p w' hp hi
      have := h.pendIn p w' _ hp hi
      omega
    refine ⟨?_, ?_, ?_, ?_, ?_, ?_⟩
    · simp only [setPc_current, hmod]; omega
    · rw [doneCount_upd s _ _ _ _ _ _ hw hnd]
      simp only [setPc_current, hmod, isDone]; omega
    · intro ev hev
      have := h.callsIn ev hev
      simp only [setPc_current, hmod]; omega
    · intro p w' i hp hi
      simp only [setPc_current, hmod, setPc_calls]
      rcases setPc_cases hp hw rfl with ⟨rfl, rfl⟩ | ⟨_, hp'⟩
      · cases hi
        refine ⟨hlo, hc, Nat.lt_succ_self _, ?_⟩
        intro hmem
        obtain ⟨ev, hev, hidx⟩ := List.mem_map.mp hmem
        have := h.callsIn ev hev
        omega
      · have := h.pendIn p w' i hp' hi
        exact ⟨this.1, this.2.1, by omega, this.2.2.2⟩
    · intro p q w1 w2 i hp hq h1 h2
      rcases setPc_cases hp hw rfl with ⟨rfl, rfl⟩ | ⟨hpt, hp'⟩
      · rcases setPc_cases hq hw rfl with ⟨rfl, rfl⟩ | ⟨_, hq'⟩
        · rfl
        · cases h1
          exact (fresh q w2 hq' h2).elim
      · rcases setPc_cases hq hw rfl with ⟨rfl, rfl⟩ | ⟨_, hq'⟩
        · cases h2
          exact (fresh p w1 hp' h1).elim
        · exact h.pendDistinct p q w1 w2 i hp' hq' h1 h2
    · exact h.nodup
  · -- enter
    intro w id hw hpc
    have hnd : isDone w.pc = false := by rw [hpc]; rfl
    have hid := h.pendIn t w id hw hpc
    refine ⟨h.lo, ?_, ?_, ?_, ?_, ?_⟩
    · rw [doneCount_upd s _ _ _ _ _ _ hw hnd]
      have := h.hi
      simp only [setPc_current, isDone]; omega
    · intro ev hev
      simp only [setPc_calls, List.mem_append, List.mem_singleton] at hev
      simp only [setPc_current]
      rcases hev with hev | rfl
      · exact h.callsIn ev hev
      · exact ⟨hid.1, hid.2.1, hid.2.2.1⟩
    · intro p w' i hp hi
      simp only [setPc_current, setPc_calls]
      rcases setPc_cases hp hw rfl with ⟨rfl, rfl⟩ | ⟨hpt, hp'⟩
      · cases hi
      · have := h.pendIn p w' i hp' hi
        refine ⟨this.1, this.2.1, this.2.2.1, ?_⟩
        intro hmem
        simp only [indices, List.map_append, List.mem_append, List.map_cons, List.map_nil,
          List.mem_singleton] at hmem
        rcases hmem with hmem | hmem
        · exact this.2.2.2 hmem
        · subst hmem
          exact hpt (h.pendDistinct p t w' w _ hp' hw hi hpc)
    · intro p q w1 w2 i hp hq h1 h2
      rcases setPc_cases hp hw rfl with ⟨rfl, rfl⟩ | ⟨_, hp'⟩
      · cases h1
      · rcases setPc_cases hq hw rfl with ⟨rfl, rfl⟩ | ⟨_, hq'⟩
        · cases h2
        · exact h.pendDistinct p q w1 w2 i hp' hq' h1 h2
    · simp only [setPc_calls, indices, List.map_append, List.map_cons, List.map_nil]
      rw [List.nodup_append]
      refine ⟨h.nodup, List.nodup_singleton _, ?_⟩
      intro a ha hb
      simp only [List.mem_singleton] at hb
      subst hb
      exact hid.2.2.2 ha
  · -- return
    intro w id hw hpc _
    exact bounded_quiet s _ h hw rfl rfl rfl (fun i hi => by cases hi) (by rw [hpc]; rfl)
  · -- throw
    intro w id e hw hpc _
    exact bounded_quiet s _ h hw rfl rfl rfl (fun i hi => by cases hi) (by rw [hpc]; rfl)
  · -- lock
    intro w e hw hpc _
    exact bounded_quiet _ _ h hw rfl rfl rfl (fun i hi => by cases hi) (by rw [hpc]; rfl)
  · -- record
    intro w e hw hpc
    exact bounded_quiet _ _ h hw rfl rfl rfl (fun i hi => by cases hi) (by rw [hpc]; rfl)
  · -- store
    intro w hw hpc
    have hnd : isDone w.pc = false := by rw [hpc]; rfl
    refine ⟨hse, ?_, ?_, ?_, ?_, ?_⟩
    · simp only [setPc_current]; omega
    · intro ev hev
      have := h.callsIn ev hev
      simp only [setPc_current]
      exact ⟨this.1, this.2.1, this.2.1⟩
    · intro p w' i hp hi
      simp only [setPc_current, setPc_calls]
      rcases setPc_cases hp hw rfl with ⟨rfl, rfl⟩ | ⟨_, hp'⟩
      · cases hi
      · have := h.pendIn p w' i hp' hi
        exact ⟨this.1, this.2.1, this.2.1, this.2.2.2⟩
    · intro p q w1 w2 i hp hq h1 h2
      rcases setPc_cases hp hw rfl with ⟨rfl, rfl⟩ | ⟨_, hp'⟩
      · cases h1
      · rcases setPc_cases hq hw rfl with ⟨rfl, rfl⟩ | ⟨_, hq'⟩
        · cases h2
        · exact h.pendDistinct p q w1 w2 i hp' hq' h1 h2
    · exact h.nodup
  · -- unlock
    intro w hw hpc
    exact bounded_quiet _ _ h hw rfl rfl rfl (fun i hi => by cases hi) (by rw [hpc]; rfl)

theorem bounded_run {ε : Type} (fn : Callable ε) (start endIdx n : Nat)
    (hse : start ≤ endIdx) (hnw : endIdx + n < SIZE_MOD) (sched : List Nat) :
    Bounded start endIdx (run fn endIdx (initState ε start n) sched) := by
  have key := run_invariant fn endIdx (fun s => Inv n s ∧ Bounded start endIdx s)
    (fun s t h => ⟨inv_step fn endIdx n s t h.1,
      bounded_step fn start endIdx n hse hnw s t h.1.len h.2⟩)
    (initState ε start n) ⟨inv_init ε start n, bounded_init ε start endIdx n hse⟩ sched
  exact key.2

/-! ## The single-thread branch -/

theorem forLoop_exit {ε : Type} (fn : Callable ε) (endIdx id : Nat) (log : List Event)
    (h : ¬ id < endIdx) : forLoop fn endIdx id log = ⟨none, log, 0⟩ := by
  rw [forLoop, if_neg h]

theorem forLoop_next {ε : Type} (fn : Callable ε) (endIdx id : Nat) (log : List Event)
    (h : id < endIdx) (hf : fn id 0 = none) :
    forLoop fn endIdx id log = forLoop fn endIdx (id + 1) (log ++ [⟨none, id, 0⟩]) := by
  rw [forLoop, if_pos h]
  simp only [hf]

theorem forLoop_throw {ε : Type} (fn : Callable ε) (endIdx id : Nat) (log : List Event)
    (e : ε) (h : id < endIdx) (hf : fn id 0 = some e) :
    forLoop fn endIdx id log = ⟨some e, log ++ [⟨none, id, 0⟩], 0⟩ := by
  rw [forLoop, if_pos h]
  simp only [hf]

theorem range_map_loopEvent (id k : Nat) :
    (List.range (k + 1)).map (loopEvent id) =
      loopEvent id 0 :: (List.range k).map (loopEvent (id + 1)) := by
  rw [List.range_succ_eq_map, List.map_cons, List.map_map]
  congr 1
  apply List.map_congr_left
  intro j _
  simp only [Function.comp, loopEvent, Event.mk.injEq, true_and, and_true]
  omega

/-- The loop either runs through (every call returns) or stops at the first
index `id + k` whose call throws; in both cases the history is the log followed
by the calls at `id, id + 1, ...` in this order. -/
theorem forLoop_spec {ε : Type} (fn : Callable ε) (endIdx : Nat) :
    ∀ (m id : Nat) (log : List Event), endIdx - id = m →
      ((∀ i, id ≤ i → i < endIdx → fn i 0 = none) ∧
        forLoop fn endIdx id log = ⟨none, log ++ (List.range m).map (loopEvent id), 0⟩) ∨
      (∃ k e, id + k < endIdx ∧ fn (id + k) 0 = some e ∧
        (∀ j, j < k → fn (id + j) 0 = none) ∧
        forLoop fn endIdx id log = ⟨some e, log ++ (List.range (k + 1)).map (loopEvent id), 0⟩)
    := by
  intro m
  induction m with
  | zero =>
    intro id log hm
    left
    refine ⟨fun i h1 h2 => by omega, ?_⟩
    rw [forLoop_exit fn endIdx id log (by omega)]
    simp
  | succ m ih =>
    intro id log hm
    have hlt : id < endIdx := by omega
    cases hf : fn id 0 with
    | some e =>
      right
      refine ⟨0, e, by omega, hf, fun j hj => by omega, ?_⟩
      rw [forLoop_throw fn endIdx id log e hlt hf]
      simp [loopEvent, List.range_succ]
    | none =>
      rw [forLoop_next fn endIdx id log hlt hf]
      rcases ih (id + 1) (log ++ [⟨none, id, 0⟩]) (by omega) with ⟨hall, heq⟩ | ⟨k, e, hk, hfk, hbefore, heq⟩
      · left
        refine ⟨?_, ?_⟩
        · intro i h1 h2
          rcases Nat.eq_or_lt_of_le h1 with h3 | h3
          · rw [← h3]; exact hf
          · exact hall i h3 h2
        · rw [heq, range_map_loopEvent]
          simp [loopEvent]
      · right
        refine ⟨k + 1, e, by omega, ?_, ?_, ?_⟩
        · have : id + (k + 1) = id + 1 + k := by omega
          rw [this]; exact hfk
        · intro j hj
          cases j with
          | zero => exact hf
          | succ j =>
            have : id + (j + 1) = id + 1 + j := by omega
            rw [this]; exact hbefore j (by omega)
        · rw [heq, range_map_loopEvent id (k + 1)]
          simp [loopEvent]

theorem allJoined_done {ε : Type} (s : State ε) (h : allJoined s = true) (p : Nat)
    (w : Worker ε) (hp : s.threads[p]? = some w) : w.pc = Pc.done := by
  unfold allJoined at h
  rw [List.all_eq_true] at h
  obtain ⟨hlt, hget⟩ := List.getElem?_eq_some.mp hp
  have := h w (hget ▸ List.getElem_mem hlt)
  cases hpc : w.pc <;> simp [hpc, isDone] at this ⊢

theorem threadIds_eq_range {ε : Type} (n : Nat) (s : State ε) (h : Inv n s) :
    s.threads.map Worker.threadId = List.range n := by
  apply List.ext_getElem?
  intro p
  rw [List.getElem?_map]
  by_cases hp : p < n
  · rw [List.getElem?_range hp]
    have hlt : p < s.threads.length := by rw [h.len]; exact hp
    rw [List.getElem?_eq_getElem hlt]
    simp only [Option.map_some']
    rw [h.ids p _ (List.getElem?_eq_getElem hlt)]
  · have h1 : s.threads.length ≤ p := by rw [h.len]; omega
    have h2 : (List.range n).length ≤ p := by simp; omega
    rw [List.getElem?_eq_none h1, List.getElem?_eq_none h2]
    rfl

/-! ## Single transitions -/

theorem step_exit {ε : Type} (fn : Callable ε) (endIdx : Nat) (s : State ε) (t : Nat)
    (w : Worker ε) (hw : s.threads[t]? = some w) (hpc : w.pc = Pc.fetch)
    (hc : endIdx ≤ s.current) :
    step fn endIdx s t =
      setPc { s with current := (s.current + 1) % SIZE_MOD } t w Pc.done := by
  unfold step
  simp only [hw, hpc]
  rw [if_pos hc]

theorem step_record {ε : Type} (fn : Callable ε) (endIdx : Nat) (s : State ε) (t : Nat)
    (w : Worker ε) (e : ε) (hw : s.threads[t]? = some w) (hpc : w.pc = Pc.locked e) :
    step fn endIdx s t = setPc { s with lastException := some e } t w Pc.store := by
  unfold step
  simp only [hw, hpc]

theorem step_store {ε : Type} (fn : Callable ε) (endIdx : Nat) (s : State ε) (t : Nat)
    (w : Worker ε) (hw : s.threads[t]? = some w) (hpc : w.pc = Pc.store) :
    step fn endIdx s t = setPc { s with current := endIdx } t w Pc.unlock := by
  unfold step
  simp only [hw, hpc]

/-- A thread that has returned stays as it is. -/
theorem done_stable {ε : Type} (fn : Callable ε) (endIdx : Nat) (s : State ε) (t p : Nat)
    (w : Worker ε) (hp : s.threads[p]? = some w) (hd : w.pc = Pc.done) :
    (step fn endIdx s t).threads[p]? = some w := by
  have other : ∀ (wt : Worker ε), s.threads[t]? = some wt → wt.pc ≠ Pc.done → p ≠ t := by
    intro wt hwt hne hpt
    subst hpt
    rw [hp] at hwt
    cases hwt
    exact hne hd
  apply step_elim fn endIdx s t (motive := fun s' => s'.threads[p]? = some w)
  · exact hp
  · intro wt hwt hpc _
    exact setPc_other _ _ hp (other wt hwt (by rw [hpc]; intro h; cases h)) hwt rfl
  · intro wt hwt hpc _
    exact setPc_other _ _ hp (other wt hwt (by rw [hpc]; intro h; cases h)) hwt rfl
  · intro wt id hwt hpc
    exact setPc_other _ _ hp (other wt hwt (by rw [hpc]; intro h; cases h)) hwt rfl
  · intro wt id hwt hpc _
    exact setPc_other _ _ hp (other wt hwt (by rw [hpc]; intro h; cases h)) hwt rfl
  · intro wt id e hwt hpc _
    exact setPc_other _ _ hp (other wt hwt (by rw [hpc]; intro h; cases h)) hwt rfl
  · intro wt e hwt hpc _
    exact setPc_other _ _ hp (other wt hwt (by rw [hpc]; intro h; cases h)) hwt rfl
  · intro wt e hwt hpc
    exact setPc_other _ _ hp (other wt hwt (by rw [hpc]; intro h; cases h)) hwt rfl
  · intro wt hwt hpc
    exact setPc_other _ _ hp (other wt hwt (by rw [hpc]; intro h; cases h)) hwt rfl
  · intro wt hwt hpc
    exact setPc_other _ _ hp (other wt hwt (by rw [hpc]; intro h; cases h)) hwt rfl

theorem done_stable_run {ε : Type} (fn : Callable ε) (endIdx : Nat) (p : Nat) (w : Worker ε)
    (hd : w.pc = Pc.done) (sched : List Nat) :
    ∀ s : State ε, s.threads[p]? = some w → (run fn endIdx s sched).threads[p]? = some w := by
  induction sched with
  | nil => intro s hp; exact hp
  | cons t rest ih =>
    intro s hp
    rw [run_cons]
    exact ih _ (done_stable fn endIdx s t p w hp hd)

theorem allJoined_of_done {ε : Type} (s : State ε)
    (h : ∀ (p : Nat) (w : Worker ε), s.threads[p]? = some w → w.pc = Pc.done) :
    allJoined s = true := by
  unfold allJoined
  rw [List.all_eq_true]
  intro w hmem
  obtain ⟨p, hlt, hget⟩ := List.getElem_of_mem hmem
  have := h p w (by rw [List.getElem?_eq_getElem hlt, hget])
  rw [this]; rfl

/-- The only transition that writes `lastException` is the assignment of line
42, and it writes the error of the thread that executes it. -/
theorem slot_written_only_by_record {ε : Type} (fn : Callable ε) (endIdx : Nat) (s : State ε)
    (t : Nat) :
    (step fn endIdx s t).lastException = s.lastException ∨
      ∃ w e, s.threads[t]? = some w ∧ w.pc = Pc.locked e ∧
        (step fn endIdx s t).lastException = some e := by
  apply step_elim fn endIdx s t (motive := fun s' => s'.lastException = s.lastException ∨
      ∃ w e, s.threads[t]? = some w ∧ w.pc = Pc.locked e ∧ s'.lastException = some e)
  · exact Or.inl rfl
  · intro w _ _ _; exact Or.inl rfl
  · intro w _ _ _; exact Or.inl rfl
  · intro w id _ _; exact Or.inl rfl
  · intro w id _ _ _; exact Or.inl rfl
  · intro w id e _ _ _; exact Or.inl rfl
  · intro w e _ _ _; exact Or.inl rfl
  · intro w e hw hpc; exact Or.inr ⟨w, e, hw, hpc, rfl⟩
  · intro w _ _; exact Or.inl rfl
  · intro w _ _; exact Or.inl rfl

/-- The invocation history only grows. -/
theorem calls_grow_step {ε : Type} (fn : Callable ε) (endIdx : Nat) (s : State ε) (t : Nat) :
    ∃ later, (step fn endIdx s t).calls = s.calls ++ later := by
  apply step_elim fn endIdx s t (motive := fun s' => ∃ later, s'.calls = s.calls ++ later)
  · exact ⟨[], by simp⟩
  · intro w _ _ _; exact ⟨[], by simp⟩
  · intro w _ _ _; exact ⟨[], by simp⟩
  · intro w id _ _; exact ⟨[⟨some t, id, w.threadId⟩], rfl⟩
  · intro w id _ _ _; exact ⟨[], by simp⟩
  · intro w id e _ _ _; exact ⟨[], by simp⟩
  · intro w e _ _ _; exact ⟨[], by simp⟩
  · intro w e _ _; exact ⟨[], by simp⟩
  · intro w _ _; exact ⟨[], by simp⟩
  · intro w _ _; exact ⟨[], by simp⟩

theorem calls_grow {ε : Type} (fn : Callable ε) (endIdx : Nat) (sched : List Nat) :
    ∀ s : State ε, ∃ later, (run fn endIdx s sched).calls = s.calls ++ later := by
  induction sched with
  | nil => intro s; exact ⟨[], by simp [run_nil]⟩
  | cons t rest ih =>
    intro s
    rw [run_cons]
    obtain ⟨l1, h1⟩ := calls_grow_step fn endIdx s t
    obtain ⟨l2, h2⟩ := ih (step fn endIdx s t)
    exact ⟨l1 ++ l2, by rw [h2, h1, List.append_assoc]⟩

/-! ## Inverted ranges -/

theorem inverted_init (ε : Type) (start n : Nat) : Inverted start (initState ε start n) := by
  refine ⟨Nat.le_refl _, Nat.le_add_right _ _, ?_, rfl, rfl⟩
  intro p w h
  simp only [initState, spawnThreads_get] at h
  split at h
  · cases h; exact Or.inl rfl
  · cases h

theorem inverted_step {ε : Type} (fn : Callable ε) (start endIdx n : Nat)
    (hinv : endIdx < start) (hnw : start + n < SIZE_MOD) (s : State ε) (t : Nat)
    (hlen : s.threads.length = n) (h : Inverted start s) :
    Inverted start (step fn endIdx s t) := by
  have absurd_pc : ∀ (w : Worker ε), s.threads[t]? = some w → w.pc ≠ Pc.fetch →
      w.pc ≠ Pc.done → False := by
    intro w hw h1 h2
    rcases h.pcs t w hw with h3 | h3
    · exact h1 h3
    · exact h2 h3
  apply step_elim fn endIdx s t
  · exact h
  · intro w hw hpc hc
    have hnd : isDone w.pc = false := by rw [hpc]; rfl
    have h1 := doneCount_setPc s Pc.done hw rfl hnd
    have h2 := doneCount_le (setPc s t w Pc.done)
    rw [setPc_length, hlen] at h2
    simp only [isDone, if_true] at h1
    have hhi := h.hi
    have hlo := h.lo
    have hmod : (s.current + 1) % SIZE_MOD = s.current + 1 := Nat.mod_eq_of_lt (by omega)
    refine ⟨?_, ?_, ?_, h.noCalls, h.noError⟩
    · simp only [setPc_current, hmod]; omega
    · rw [doneCount_upd s _ _ _ _ _ _ hw hnd]
      simp only [setPc_current, hmod, isDone, if_true]; omega
    · intro p w' hp
      rcases setPc_cases hp hw rfl with ⟨rfl, rfl⟩ | ⟨_, hp'⟩
      · exact Or.inr rfl
      · exact h.pcs p w' hp'
  · intro w hw hpc hc
    have := h.lo
    omega
  · intro w id hw hpc
    exact (absurd_pc w hw (by rw [hpc]; intro h; cases h) (by rw [hpc]; intro h; cases h)).elim
  · intro w id hw hpc _
    exact (absurd_pc w hw (by rw [hpc]; intro h; cases h) (by rw [hpc]; intro h; cases h)).elim
  · intro w id e hw hpc _
    exact (absurd_pc w hw (by rw [hpc]; intro h; cases h) (by rw [hpc]; intro h; cases h)).elim
  · intro w e hw hpc _
    exact (absurd_pc w hw (by rw [hpc]; intro h; cases h) (by rw [hpc]; intro h; cases h)).elim
  · intro w e hw hpc
    exact (absurd_pc w hw (by rw [hpc]; intro h; cases h) (by rw [hpc]; intro h; cases h)).elim
  · intro w hw hpc
    exact (absurd_pc w hw (by rw [hpc]; intro h; cases h) (by rw [hpc]; intro h; cases h)).elim
  · intro w hw hpc
    exact (absurd_pc w hw (by rw [hpc]; intro h; cases h) (by rw [hpc]; intro h; cases h)).elim

/-- In an inverted range a thread has returned as soon as it has been scheduled
once. -/
theorem inverted_scheduled_done {ε : Type} (fn : Callable ε) (start endIdx n : Nat)
    (hinv : endIdx < start) (hnw : start + n < SIZE_MOD) (p : Nat) (sched : List Nat) :
    ∀ s : State ε, Inv n s → Inverted start s → p < n → p ∈ sched →
      ∃ w, (run fn endIdx s sched).threads[p]? = some w ∧ w.pc = Pc.done := by
  induction sched with
  | nil => intro s _ _ _ hmem; cases hmem
  | cons t rest ih =>
    intro s hI hV hp hmem
    rw [run_cons]
    have hI' := inv_step fn endIdx n s t hI
    have hV' := inverted_step fn start endIdx n hinv hnw s t hI.len hV
    by_cases hpt : p = t
    · subst hpt
      have hlt : p < s.threads.length := by rw [hI.len]; exact hp
      have hw : s.threads[p]? = some s.threads[p] := List.getElem?_eq_getElem hlt
      have now : ∃ w, (step fn endIdx s p).threads[p]? = some w ∧ w.pc = Pc.done := by
        rcases hV.pcs p _ hw with hpc | hpc
        · have hc : endIdx ≤ s.current := by have := hV.lo; omega
          rw [step_exit fn endIdx s p _ hw hpc hc]
          exact ⟨_, setPc_self _ _ hw rfl, rfl⟩
        · exact ⟨_, done_stable fn endIdx s p p _ hw hpc, hpc⟩
      obtain ⟨w, hw1, hw2⟩ := now
      exact ⟨w, done_stable_run fn endIdx p w hw2 rest _ hw1, hw2⟩
    · have : p ∈ rest := by
        rcases List.mem_cons.mp hmem with h1 | h1
        · exact (hpt h1).elim
        · exact h1
      exact ih _ hI' hV' hp this

theorem inverted_run {ε : Type} (fn : Callable ε) (start endIdx n : Nat)
    (hinv : endIdx < start) (hnw : start + n < SIZE_MOD) (sched : List Nat) :
    Inverted start (run fn endIdx (initState ε start n) sched) := by
  have key := run_invariant fn endIdx (fun s => Inv n s ∧ Inverted start s)
    (fun s t h => ⟨inv_step fn endIdx n s t h.1,
      inverted_step fn start endIdx n hinv hnw s t h.1.len h.2⟩)
    (initState ε start n) ⟨inv_init ε start n, inverted_init ε start n⟩ sched
  exact key.2

/-! ## After a failure has been handled -/

theorem reach_append_cons {ε : Type} (fn : Callable ε) (start endIdx n : Nat)
    (sched1 sched2 : List Nat) (t : Nat) :
    reach fn start endIdx n (sched1 ++ t :: sched2) =
      run fn endIdx (step fn endIdx (reach fn start endIdx n sched1) t) sched2 := by
  simp only [reach, run_append, run_cons]

theorem fetch_no_wrap {ε : Type} {start endIdx n : Nat} (hnw : endIdx + n < SIZE_MOD)
    (s : State ε) (hlen : s.threads.length = n) (h : Bounded start endIdx s) {t : Nat}
    {w : Worker ε} (hw : s.threads[t]? = some w) (hnd : isDone w.pc = false) :
    (s.current + 1) % SIZE_MOD = s.current + 1 := by
  have h1 := doneCount_setPc s Pc.done hw rfl hnd
  have h2 := doneCount_le (setPc s t w Pc.done)
  rw [setPc_length, hlen] at h2
  simp only [isDone, if_true] at h1
  have := h.hi
  exact Nat.mod_eq_of_lt (by omega)

theorem after_refl {ε : Type} (endIdx : Nat) (s : State ε) (h : endIdx ≤ s.current) :
    After endIdx s s := by
  refine ⟨h, fun p w i hp hi => ⟨w, hp, hi⟩, [], by simp, ?_⟩
  intro ev hev
  cases hev

theorem after_quiet {ε : Type} {endIdx : Nat} {base s0 : State ε} (s : State ε) {t : Nat}
    {w : Worker ε} (pc : Pc ε) (h : After endIdx base s0) (hw : s0.threads[t]? = some w)
    (hs : s.threads = s0.threads) (hcur : endIdx ≤ s.current) (hcalls : s.calls = s0.calls)
    (hpc : ∀ i, pc ≠ Pc.call i) : After endIdx base (setPc s t w pc) := by
  refine ⟨by rw [setPc_current]; exact hcur, ?_, ?_⟩
  · intro p w' i hp hi
    rcases setPc_cases hp hw hs with ⟨rfl, rfl⟩ | ⟨_, hp'⟩
    · exact (hpc i hi).elim
    · exact h.pend p w' i hp' hi
  · rw [setPc_calls, hcalls]; exact h.later

theorem after_step {ε : Type} (fn : Callable ε) (start endIdx n : Nat)
    (hnw : endIdx + n < SIZE_MOD) (base s : State ε) (t : Nat)
    (hlen : s.threads.length = n) (hB : Bounded start endIdx s) (h : After endIdx base s) :
    After endIdx base (step fn endIdx s t) := by
  apply step_elim fn endIdx s t
  · exact h
  · intro w hw hpc hc
    have hmod := fetch_no_wrap hnw s hlen hB hw (by rw [hpc]; rfl)
    exact after_quiet _ _ h hw rfl (by show endIdx ≤ (s.current + 1) % SIZE_MOD; omega) rfl
      (fun i hi => by cases hi)
  · intro w hw hpc hc
    have := h.cur
    omega
  · intro w id hw hpc
    refine ⟨h.cur, ?_, ?_⟩
    · intro p w' i hp hi
      rcases setPc_cases hp hw rfl with ⟨rfl, rfl⟩ | ⟨_, hp'⟩
      · cases hi
      · exact h.pend p w' i hp' hi
    · obtain ⟨later, h1, h2⟩ := h.later
      refine ⟨later ++ [⟨some t, id, w.threadId⟩], ?_, ?_⟩
      · simp only [setPc_calls, h1, List.append_assoc]
      · intro ev hev
        rcases List.mem_append.mp hev with hev | hev
        · exact h2 ev hev
        · rw [List.mem_singleton] at hev
          subst hev
          obtain ⟨w0, hw0, hpc0⟩ := h.pend t w id hw hpc
          exact ⟨t, w0, rfl, hw0, hpc0⟩
  · intro w id hw hpc _
    exact after_quiet _ _ h hw rfl h.cur rfl (fun i hi => by cases hi)
  · intro w id e hw hpc _
    exact after_quiet _ _ h hw rfl h.cur rfl (fun i hi => by cases hi)
  · intro w e hw hpc _
    exact after_quiet _ _ h hw rfl h.cur rfl (fun i hi => by cases hi)
  · intro w e hw hpc
    exact after_quiet _ _ h hw rfl h.cur rfl (fun i hi => by cases hi)
  · intro w hw hpc
    exact after_quiet _ _ h hw rfl (Nat.le_refl _) rfl (fun i hi => by cases hi)
  · intro w hw hpc
    exact after_quiet _ _ h hw rfl h.cur rfl (fun i hi => by cases hi)

theorem after_run {ε : Type} (fn : Callable ε) (start endIdx n : Nat)
    (hse : start ≤ endIdx) (hnw : endIdx + n < SIZE_MOD) (base : State ε) (hI : Inv n base)
    (hB : Bounded start endIdx base) (hc : endIdx ≤ base.current) (sched : List Nat) :
    After endIdx base (run fn endIdx base sched) := by
  have key := run_invariant fn endIdx
    (fun s => Inv n s ∧ Bounded start endIdx s ∧ After endIdx base s)
    (fun s t h => ⟨inv_step fn endIdx n s t h.1,
      bounded_step fn start endIdx n hse hnw s t h.1.len h.2.1,
      after_step fn start endIdx n hnw base s t h.1.len h.2.1 h.2.2⟩)
    base ⟨hI, hB, after_refl endIdx base hc⟩ sched
  exact key.2.2

/-- In the single-thread branch a throwing invocation is the last one. -/
theorem forLoop_throw_is_last {ε : Type} (fn : Callable ε) (start endIdx : Nat) (j : Nat)
    (ev : Event) (hj : (forLoop fn endIdx start []).calls[j]? = some ev)
    (hf : fn ev.index ev.workerId ≠ none) :
    j + 1 = (forLoop fn endIdx start []).calls.length := by
  rcases forLoop_spec fn endIdx (endIdx - start) start [] rfl with
    ⟨hall, heq⟩ | ⟨k, e, hk, _, hbefore, heq⟩
  · rw [heq] at hj
    simp only [List.nil_append, List.getElem?_map] at hj
    cases hr : (List.range (endIdx - start))[j]? with
    | none => rw [hr] at hj; cases hj
    | some j' =>
      rw [hr] at hj
      simp only [Option.map_some', Option.some.injEq] at hj
      subst hj
      obtain ⟨hlt, hget⟩ := List.getElem?_eq_some.mp hr
      simp only [List.length_range] at hlt
      rw [List.getElem_range] at hget
      subst hget
      exact (hf (hall (start + j) (by omega) (by omega))).elim
  · rw [heq] at hj ⊢
    simp only [List.nil_append, List.getElem?_map, List.length_map, List.length_range] at hj ⊢
    cases hr : (List.range (k + 1))[j]? with
    | none => rw [hr] at hj; cases hj
    | some j' =>
      rw [hr] at hj
      simp only [Option.map_some', Option.some.injEq] at hj
      subst hj
      obtain ⟨hlt, hget⟩ := List.getElem?_eq_some.mp hr
      simp only [List.length_range] at hlt
      rw [List.getElem_range] at hget
      subst hget
      by_cases hjk : j < k
      · exact (hf (hbefore j hjk)).elim
      · omega

/-! ## Progress: every run can be completed -/

theorem sum_map_set {α : Type} (f : α → Nat) (l : List α) (t : Nat) (a b : α)
    (h : l[t]? = some a) : ((l.set t b).map f).sum + f a = (l.map f).sum + f b := by
  induction l generalizing t with
  | nil => simp at h
  | cons x l ih =>
    cases t with
    | zero =>
      simp only [List.getElem?_cons_zero, Option.some.injEq] at h
      subst h
      simp only [List.set_cons_zero, List.map_cons, List.sum_cons]
      omega
    | succ t =>
      simp only [List.getElem?_cons_succ] at h
      have := ih t h
      simp only [List.set_cons_succ, List.map_cons, List.sum_cons]
      omega

theorem weightSum_upd {ε : Type} (s0 : State ε) (c : Nat) (x : Option ε) (o : Option Nat)
    (cs : List Event) (a : List (Nat × ε)) {t : Nat} {w : Worker ε} (pc : Pc ε)
    (hw : s0.threads[t]? = some w) :
    weightSum (setPc ⟨c, x, o, s0.threads, cs, a⟩ t w pc) + weight w.pc =
      weightSum s0 + weight pc :=
  sum_map_set (fun (v : Worker ε) => weight v.pc) s0.threads t w ⟨w.threadId, pc⟩ hw

/-- Case analysis on a transition of an enabled thread. -/
theorem step_enabled_elim {ε : Type} {motive : State ε → Prop} (fn : Callable ε)
    (endIdx : Nat) (s : State ε) (t : Nat) (hen : enabled s t = true)
    (hexit : ∀ w, s.threads[t]? = some w → w.pc = Pc.fetch → endIdx ≤ s.current →
      motive (setPc { s with current := (s.current + 1) % SIZE_MOD } t w Pc.done))
    (hclaim : ∀ w, s.threads[t]? = some w → w.pc = Pc.fetch → s.current < endIdx →
      motive (setPc { s with current := (s.current + 1) % SIZE_MOD } t w (Pc.call s.current)))
    (henter : ∀ w id, s.threads[t]? = some w → w.pc = Pc.call id →
      motive (setPc { s with calls := s.calls ++ [⟨some t, id, w.threadId⟩] } t w
        (Pc.running id)))
    (hreturn : ∀ w id, s.threads[t]? = some w → w.pc = Pc.running id →
      fn id w.threadId = none → motive (setPc s t w Pc.fetch))
    (hthrow : ∀ w id e, s.threads[t]? = some w → w.pc = Pc.running id →
      fn id w.threadId = some e → motive (setPc s t w (Pc.caught e)))
    (hlock : ∀ w e, s.threads[t]? = some w → w.pc = Pc.caught e → s.mutexOwner = none →
      motive (setPc { s with mutexOwner := some t, acquired := s.acquired ++ [(t, e)] } t w
        (Pc.locked e)))
    (hrecord : ∀ w e, s.threads[t]? = some w → w.pc = Pc.locked e →
      motive (setPc { s with lastException := some e } t w Pc.store))
    (hstore : ∀ w, s.threads[t]? = some w → w.pc = Pc.store →
      motive (setPc { s with current := endIdx } t w Pc.unlock))
    (hunlock : ∀ w, s.threads[t]? = some w → w.pc = Pc.unlock →
      motive (setPc { s with mutexOwner := none } t w Pc.done)) :
    motive (step fn endIdx s t) := by
  unfold enabled at hen
  unfold step
  cases hw : s.threads[t]? with
  | none => rw [hw] at hen; cases hen
  | some w =>
    rw [hw] at hen
    simp only at hen ⊢
    cases hpc : w.pc with
    | fetch =>
      simp only
      by_cases hc : s.current ≥ endIdx
      · rw [if_pos hc]; exact hexit w hw hpc hc
      · rw [if_neg hc]; exact hclaim w hw hpc (Nat.lt_of_not_ge hc)
    | call id => exact henter w id hw hpc
    | running id =>
      simp only
      cases hf : fn id w.threadId with
      | none => exact hreturn w id hw hpc hf
      | some e => exact hthrow w id e hw hpc hf
    | caught e =>
      simp only
      rw [hpc] at hen
      cases ho : s.mutexOwner with
      | none =>
        have h := hlock w e hw hpc ho
        simp only [ho] at h
        exact h
      | some o => rw [ho] at hen; cases hen
    | locked e => exact hrecord w e hw hpc
    | store => exact hstore w hw hpc
    | unlock => exact hunlock w hw hpc
    | done => rw [hpc] at hen; cases hen

/-- Every transition of an enabled thread lowers the potential, as long as the
counter cannot wrap. -/
theorem potential_step_lt {ε : Type} (fn : Callable ε) (start endIdx n : Nat)
    (hnw : endIdx + n < SIZE_MOD) (s : State ε) (t : Nat) (hlen : s.threads.length = n)
    (hB : Bounded start endIdx s) (hen : enabled s t = true) :
    potential endIdx (step fn endIdx s t) < potential endIdx s := by
  apply step_enabled_elim fn endIdx s t hen
    (motive := fun s' => potential endIdx s' < potential endIdx s)
  · intro w hw hpc hc
    have hmod := fetch_no_wrap hnw s hlen hB hw (by rw [hpc]; rfl)
    have hsum := weightSum_upd s ((s.current + 1) % SIZE_MOD) s.lastException s.mutexOwner
      s.calls s.acquired Pc.done hw
    simp only [hpc, weight, hmod] at hsum
    simp only [potential, setPc_current, hmod]
    omega
  · intro w hw hpc hc
    have hmod := fetch_no_wrap hnw s hlen hB hw (by rw [hpc]; rfl)
    have hsum := weightSum_upd s ((s.current + 1) % SIZE_MOD) s.lastException s.mutexOwner
      s.calls s.acquired (Pc.call s.current) hw
    simp only [hpc, weight, hmod] at hsum
    simp only [potential, setPc_current, hmod]
    omega
  · intro w id hw hpc
    have hsum := weightSum_upd s s.current s.lastException s.mutexOwner
      (s.calls ++ [⟨some t, id, w.threadId⟩]) s.acquired (Pc.running id) hw
    simp only [hpc, weight] at hsum
    simp only [potential, setPc_current]
    omega
  · intro w id hw hpc _
    have hsum := weightSum_upd s s.current s.lastException s.mutexOwner
      s.calls s.acquired Pc.fetch hw
    simp only [hpc, weight] at hsum
    have : weightSum (setPc s t w Pc.fetch) + 5 = weightSum s + 1 := hsum
    simp only [potential, setPc_current]
    omega
  · intro w id e hw hpc _
    have hsum := weightSum_upd s s.current s.lastException s.mutexOwner
      s.calls s.acquired (Pc.caught e) hw
    simp only [hpc, weight] at hsum
    have : weightSum (setPc s t w (Pc.caught e)) + 5 = weightSum s + 4 := hsum
    simp only [potential, setPc_current]
    omega
  · intro w e hw hpc _
    have hsum := weightSum_upd s s.current s.lastException (some t)
      s.calls (s.acquired ++ [(t, e)]) (Pc.locked e) hw
    simp only [hpc, weight] at hsum
    simp only [potential, setPc_current]
    omega
  · intro w e hw hpc
    have hsum := weightSum_upd s s.current (some e) s.mutexOwner
      s.calls s.acquired Pc.store hw
    simp only [hpc, weight] at hsum
    simp only [potential, setPc_current]
    omega
  · intro w hw hpc
    have hsum := weightSum_upd s endIdx s.lastException s.mutexOwner
      s.calls s.acquired Pc.unlock hw
    simp only [hpc, weight] at hsum
    simp only [potential, setPc_current]
    omega
  · intro w hw hpc
    have hsum := weightSum_upd s s.current s.lastException none
      s.calls s.acquired Pc.done hw
    simp only [hpc, weight] at hsum
    simp only [potential, setPc_current]
    omega

theorem held_init (ε : Type) (start n : Nat) : Held (initState ε start n) := by
  intro q hq
  cases hq

theorem held_step {ε : Type} (fn : Callable ε) (endIdx : Nat) (s : State ε) (t : Nat)
    (h : Held s) : Held (step fn endIdx s t) := by
  -- a transition of a thread that does not hold the mutex leaves the owner in place
  have other : ∀ (s1 : State ε) (w : Worker ε) (pc : Pc ε), s.threads[t]? = some w →
      holdsMutex w.pc = false → s1.threads = s.threads → s1.mutexOwner = s.mutexOwner →
      Held (setPc s1 t w pc) := by
    intro s1 w pc hw hnm hs ho q hq
    rw [setPc_mutexOwner, ho] at hq
    obtain ⟨wq, hwq, hm⟩ := h q hq
    have hqt : q ≠ t := by
      intro hqt
      subst hqt
      rw [hw] at hwq
      cases hwq
      rw [hnm] at hm
      cases hm
    exact ⟨wq, setPc_other _ _ hwq hqt hw hs, hm⟩
  -- a transition of the owner to another position inside the critical section
  have inside : ∀ (s1 : State ε) (w : Worker ε) (pc : Pc ε), s.threads[t]? = some w →
      holdsMutex pc = true → s1.threads = s.threads → s1.mutexOwner = s.mutexOwner →
      Held (setPc s1 t w pc) := by
    intro s1 w pc hw hm' hs ho q hq
    rw [setPc_mutexOwner, ho] at hq
    obtain ⟨wq, hwq, hm⟩ := h q hq
    by_cases hqt : q = t
    · subst hqt
      exact ⟨_, setPc_self _ _ hw hs, hm'⟩
    · exact ⟨wq, setPc_other _ _ hwq hqt hw hs, hm⟩
  apply step_elim fn endIdx s t
  · exact h
  · intro w hw hpc _
    exact other _ w _ hw (by rw [hpc]; rfl) rfl rfl
  · intro w hw hpc _
    exact other _ w _ hw (by rw [hpc]; rfl) rfl rfl
  · intro w id hw hpc
    exact other _ w _ hw (by rw [hpc]; rfl) rfl rfl
  · intro w id hw hpc _
    exact other _ w _ hw (by rw [hpc]; rfl) rfl rfl
  · intro w id e hw hpc _
    exact other _ w _ hw (by rw [hpc]; rfl) rfl rfl
  · intro w e hw hpc _ q hq
    simp only [setPc_mutexOwner, Option.some.injEq] at hq
    subst hq
    exact ⟨_, setPc_self _ _ hw rfl, rfl⟩
  · intro w e hw hpc
    exact inside _ w _ hw rfl rfl rfl
  · intro w hw hpc
    exact inside _ w _ hw rfl rfl rfl
  · intro w hw hpc q hq
    cases hq

/-- As long as a thread has not returned, some thread is enabled: the threads
cannot block one another for good. -/
theorem exists_enabled {ε : Type} (s : State ε) (hH : Held s) (hnj : allJoined s ≠ true) :
    ∃ t, enabled s t = true := by
  by_contra hno
  apply hnj
  apply allJoined_of_done
  intro p w hp
  have hdis : ∀ t, enabled s t = false := by
    intro t
    cases he : enabled s t with
    | false => rfl
    | true => exact (hno ⟨t, he⟩).elim
  have hp' := hdis p
  unfold enabled at hp'
  rw [hp] at hp'
  simp only at hp'
  cases hpc : w.pc with
  | done => rfl
  | caught e =>
    rw [hpc] at hp'
    simp only at hp'
    cases ho : s.mutexOwner with
    | none => rw [ho] at hp'; cases hp'
    | some q =>
      obtain ⟨wq, hwq, hm⟩ := hH q ho
      have hq' := hdis q
      unfold enabled at hq'
      rw [hwq] at hq'
      simp only at hq'
      cases hq : wq.pc with
      | locked e' => rw [hq] at hq'; cases hq'
      | store => rw [hq] at hq'; cases hq'
      | unlock => rw [hq] at hq'; cases hq'
      | fetch => rw [hq] at hm; cases hm
      | call i => rw [hq] at hm; cases hm
      | running i => rw [hq] at hm; cases hm
      | caught e' => rw [hq] at hm; cases hm
      | done => rw [hq] at hm; cases hm
  | fetch => rw [hpc] at hp'; cases hp'
  | call i => rw [hpc] at hp'; cases hp'
  | running i => rw [hpc] at hp'; cases hp'
  | locked e => rw [hpc] at hp'; cases hp'
  | store => rw [hpc] at hp'; cases hp'
  | unlock => rw [hpc] at hp'; cases hp'

/-- From every state that satisfies the invariants the threads can be
scheduled so that all of them return. -/
theorem can_finish {ε : Type} (fn : Callable ε) (start endIdx n : Nat) (hse : start ≤ endIdx)
    (hnw : endIdx + n < SIZE_MOD) :
    ∀ (m : Nat) (s : State ε), Inv n s → Held s → Bounded start endIdx s →
      potential endIdx s ≤ m → ∃ sched, allJoined (run fn endIdx s sched) = true := by
  intro m
  induction m with
  | zero =>
    intro s hI hH hB hm
    by_cases hj : allJoined s = true
    · exact ⟨[], hj⟩
    · obtain ⟨t, ht⟩ := exists_enabled s hH hj
      have := potential_step_lt fn start endIdx n hnw s t hI.len hB ht
      omega
  | succ m ih =>
    intro s hI hH hB hm
    by_cases hj : allJoined s = true
    · exact ⟨[], hj⟩
    · obtain ⟨t, ht⟩ := exists_enabled s hH hj
      have hlt := potential_step_lt fn start endIdx n hnw s t hI.len hB ht
      obtain ⟨sched, hs⟩ := ih (step fn endIdx s t) (inv_step fn endIdx n s t hI)
        (held_step fn endIdx s t hH) (bounded_step fn start endIdx n hse hnw s t hI.len hB)
        (by omega)
      exact ⟨t :: sched, by rw [run_cons]; exact hs⟩

theorem held_run {ε : Type} (fn : Callable ε) (start endIdx n : Nat) (sched : List Nat) :
    Held (run fn endIdx (initState ε start n) sched) := by
  have key := run_invariant fn endIdx (fun s => Inv n s ∧ Held s)
    (fun s t h => ⟨inv_step fn endIdx n s t h.1, held_step fn endIdx s t h.2⟩)
    (initState ε start n) ⟨inv_init ε start n, held_init ε start n⟩ sched
  exact key.2

/-- Every schedule can be continued so that all threads return and the joins of
lines 55-57 complete. -/
theorem run_can_be_completed {ε : Type} (fn : Callable ε) (start endIdx n : Nat)
    (hse : start ≤ endIdx) (hnw : endIdx + n < SIZE_MOD) (sched : List Nat) :
    ∃ sched2, allJoined (reach fn start endIdx n (sched ++ sched2)) = true := by
  obtain ⟨sched2, h⟩ := can_finish fn start endIdx n hse hnw _
    (reach fn start endIdx n sched) (inv_run fn start endIdx n sched)
    (held_run fn start endIdx n sched) (bounded_run fn start endIdx n hse hnw sched)
    (Nat.le_refl _)
  exact ⟨sched2, by simp only [reach, run_append]; exact h⟩

/-! ## Coverage when `fn` never throws -/

theorem covering_init (ε : Type) (start endIdx n : Nat) :
    Covering start endIdx (initState ε start n) := by
  refine ⟨?_, rfl, ?_, ?_⟩
  · intro p w h
    simp only [initState, spawnThreads_get] at h
    split at h
    · cases h; rfl
    · cases h
  · intro i h1 h2 _
    simp only [initState] at h2
    omega
  · intro p w h hd
    simp only [initState, spawnThreads_get] at h
    split at h
    · cases h; cases hd
    · cases h

theorem covering_step {ε : Type} (fn : Callable ε) (start endIdx n : Nat)
    (hnw : endIdx + n < SIZE_MOD) (hok : ∀ i w, fn i w = none) (s : State ε) (t : Nat)
    (hlen : s.threads.length = n) (hB : Bounded start endIdx s)
    (h : Covering start endIdx s) : Covering start endIdx (step fn endIdx s t) := by
  have noHandler : ∀ (w : Worker ε), s.threads[t]? = some w → inHandler w.pc = true → False := by
    intro w hw hh
    rw [h.pcs t w hw] at hh
    cases hh
  -- a thread about to call `fn` is still so after a transition of another thread
  have keep : ∀ (s1 : State ε) (w : Worker ε) (pc : Pc ε) (i : Nat),
      s.threads[t]? = some w → (∀ j, w.pc ≠ Pc.call j) → s1.threads = s.threads →
      (∃ (p : Nat) (w' : Worker ε), s.threads[p]? = some w' ∧ w'.pc = Pc.call i) →
      ∃ (p : Nat) (w' : Worker ε), (setPc s1 t w pc).threads[p]? = some w' ∧ w'.pc = Pc.call i := by
    intro s1 w pc i hw hnc hs ⟨p, w', hp, hi⟩
    have hpt : p ≠ t := by
      intro hpt
      subst hpt
      rw [hw] at hp
      cases hp
      exact hnc i hi
    exact ⟨p, w', setPc_other _ _ hp hpt hw hs, hi⟩
  apply step_elim fn endIdx s t
  · exact h
  · -- exit
    intro w hw hpc hc
    have hmod := fetch_no_wrap hnw s hlen hB hw (by rw [hpc]; rfl)
    refine ⟨?_, h.noError, ?_, ?_⟩
    · intro p w' hp
      rcases setPc_cases hp hw rfl with ⟨rfl, rfl⟩ | ⟨_, hp'⟩
      · rfl
      · exact h.pcs p w' hp'
    · intro i h1 _ h3
      rcases h.cover i h1 (by omega) h3 with hin | hex
      · exact Or.inl hin
      · exact Or.inr (keep _ w _ i hw (by rw [hpc]; intro j hj; cases hj) rfl hex)
    · intro p w' hp hd
      simp only [setPc_current, hmod]
      omega
  · -- claim
    intro w hw hpc hc
    have hmod := fetch_no_wrap hnw s hlen hB hw (by rw [hpc]; rfl)
    refine ⟨?_, h.noError, ?_, ?_⟩
    · intro p w' hp
      rcases setPc_cases hp hw rfl with ⟨rfl, rfl⟩ | ⟨_, hp'⟩
      · rfl
      · exact h.pcs p w' hp'
    · intro i h1 h2 h3
      simp only [setPc_current, hmod] at h2
      by_cases hi : i = s.current
      · subst hi
        exact Or.inr ⟨t, _, setPc_self _ _ hw rfl, rfl⟩
      · rcases h.cover i h1 (by omega) h3 with hin | hex
        · exact Or.inl hin
        · exact Or.inr (keep _ w _ i hw (by rw [hpc]; intro j hj; cases hj) rfl hex)
    · intro p w' hp hd
      rcases setPc_cases hp hw rfl with ⟨rfl, rfl⟩ | ⟨_, hp'⟩
      · cases hd
      · have := h.doneImp p w' hp' hd
        omega
  · -- enter
    intro w id hw hpc
    refine ⟨?_, h.noError, ?_, ?_⟩
    · intro p w' hp
      rcases setPc_cases hp hw rfl with ⟨rfl, rfl⟩ | ⟨_, hp'⟩
      · rfl
      · exact h.pcs p w' hp'
    · intro i h1 h2 h3
      simp only [setPc_calls, indices, List.map_append, List.map_cons, List.map_nil,
        List.mem_append, List.mem_singleton]
      rcases h.cover i h1 h2 h3 with hin | ⟨p, w', hp, hi⟩
      · exact Or.inl (Or.inl hin)
      · by_cases hpt : p = t
        · subst hpt
          rw [hw] at hp
          cases hp
          rw [hpc] at hi
          cases hi
          exact Or.inl (Or.inr rfl)
        · exact Or.inr ⟨p, w', setPc_other _ _ hp hpt hw rfl, hi⟩
    · intro p w' hp hd
      rcases setPc_cases hp hw rfl with ⟨rfl, rfl⟩ | ⟨_, hp'⟩
      · cases hd
      · exact h.doneImp p w' hp' hd
  · -- return
    intro w id hw hpc _
    refine ⟨?_, h.noError, ?_, ?_⟩
    · intro p w' hp
      rcases setPc_cases hp hw rfl with ⟨rfl, rfl⟩ | ⟨_, hp'⟩
      · rfl
      · exact h.pcs p w' hp'
    · intro i h1 h2 h3
      rcases h.cover i h1 h2 h3 with hin | hex
      · exact Or.inl hin
      · exact Or.inr (keep _ w _ i hw (by rw [hpc]; intro j hj; cases hj) rfl hex)
    · intro p w' hp hd
      rcases setPc_cases hp hw rfl with ⟨rfl, rfl⟩ | ⟨_, hp'⟩
      · cases hd
      · exact h.doneImp p w' hp' hd
  · -- throw
    intro w id e hw hpc hf
    rw [hok] at hf
    cases hf
  · intro w e hw hpc _
    exact (noHandler w hw (by rw [hpc]; rfl)).elim
  · intro w e hw hpc
    exact (noHandler w hw (by rw [hpc]; rfl)).elim
  · intro w hw hpc
    exact (noHandler w hw (by rw [hpc]; rfl)).elim
  · intro w hw hpc
    exact (noHandler w hw (by rw [hpc]; rfl)).elim

theorem covering_run {ε : Type} (fn : Callable ε) (start endIdx n : Nat)
    (hse : start ≤ endIdx) (hnw : endIdx + n < SIZE_MOD) (hok : ∀ i w, fn i w = none)
    (sched : List Nat) : Covering start endIdx (reach fn start endIdx n sched) := by
  have key := run_invariant fn endIdx
    (fun s => Inv n s ∧ Bounded start endIdx s ∧ Covering start endIdx s)
    (fun s t h => ⟨inv_step fn endIdx n s t h.1,
      bounded_step fn start endIdx n hse hnw s t h.1.len h.2.1,
      covering_step fn start endIdx n hnw hok s t h.1.len h.2.1 h.2.2⟩)
    (initState ε start n)
    ⟨inv_init ε start n, bounded_init ε start endIdx n hse, covering_init ε start endIdx n⟩ sched
  exact key.2.2

theorem indices_loopEvent (start m : Nat) :
    indices ((List.range m).map (loopEvent start)) = List.range' start m := by
  rw [List.range'_eq_map_range, indices, List.map_map]
  rfl

/-- Without wrap-around every invocation is of an index of the range, no index
is invoked twice, and there are at most `end - start` invocations. -/
theorem invocations_in_range_once {ε : Type} (fn : Callable ε) (start endIdx n : Nat)
    (hse : start ≤ endIdx) (hnw : endIdx + n < SIZE_MOD) (sched : List Nat) :
    (∀ ev ∈ (reach fn start endIdx n sched).calls, start ≤ ev.index ∧ ev.index < endIdx) ∧
    (indices (reach fn start endIdx n sched).calls).Nodup ∧
    (reach fn start endIdx n sched).calls.length ≤ endIdx - start := by
  have hB : Bounded start endIdx (reach fn start endIdx n sched) :=
    bounded_run fn start endIdx n hse hnw sched
  have hin : ∀ ev ∈ (reach fn start endIdx n sched).calls,
      start ≤ ev.index ∧ ev.index < endIdx :=
    fun ev hev => ⟨(hB.callsIn ev hev).1, (hB.callsIn ev hev).2.1⟩
  refine ⟨hin, hB.nodup, ?_⟩
  have hsub : indices (reach fn start endIdx n sched).calls ⊆
      List.range' start (endIdx - start) := by
    intro a ha
    obtain ⟨ev, hev, rfl⟩ := List.mem_map.mp ha
    have := hin ev hev
    rw [List.mem_range'_1]
    omega
  have := (List.subperm_of_subset hB.nodup hsub).length_le
  simpa [indices] using this

/-! ## A callable that throws at exactly one index -/

theorem oneFailure_init {ε : Type} (fn : Callable ε) (k start endIdx n : Nat) (hsk : start ≤ k) :
    OneFailure fn k endIdx (initState ε start n) := by
  have fresh : ∀ (p : Nat) (w : Worker ε), (initState ε start n).threads[p]? = some w →
      w.pc = Pc.fetch := by
    intro p w h
    simp only [initState, spawnThreads_get] at h
    split at h
    · cases h; rfl
    · cases h
  refine ⟨?_, ?_, ?_, ?_, ?_, ?_, ?_⟩
  · intro p w e hp hpc
    rw [fresh p w hp] at hpc
    rcases hpc with h | h <;> cases h
  · intro pe hpe
    cases hpe
  · intro p w i hp hpc
    rw [fresh p w hp] at hpc
    cases hpc
  · intro p w hp hh
    rw [fresh p w hp] at hh
    cases hh
  · intro hk
    cases hk
  · intro p w hp hpc
    rw [fresh p w hp] at hpc
    rcases hpc with h | h <;> cases h
  · intro hk
    simp only [initState] at hk
    omega

/-- Every transition keeps `OneFailure`. -/
theorem oneFailure_step {ε : Type} (fn : Callable ε) (k start endIdx n : Nat)
    (hke : k < endIdx) (hnw : endIdx + n < SIZE_MOD) (hk : ∀ w, fn k w ≠ none)
    (hother : ∀ i w, i ≠ k → fn i w = none) (s : State ε) (t : Nat)
    (hlen : s.threads.length = n) (hB : Bounded start endIdx s)
    (h : OneFailure fn k endIdx s) : OneFailure fn k endIdx (step fn endIdx s t) := by
  -- the witness of `thrown` survives a transition of a thread that is not the witness
  have keepThrown : ∀ (s1 : State ε) (w : Worker ε) (pc : Pc ε), s.threads[t]? = some w →
      (w.pc = Pc.running k ∨ (∃ e, w.pc = Pc.caught e) →
        pc = Pc.running k ∨ ∃ e, pc = Pc.caught e) →
      s1.threads = s.threads →
      (∃ (p : Nat) (w' : Worker ε), s.threads[p]? = some w' ∧
        (w'.pc = Pc.running k ∨ ∃ e, w'.pc = Pc.caught e)) →
      ∃ (p : Nat) (w' : Worker ε), (setPc s1 t w pc).threads[p]? = some w' ∧
        (w'.pc = Pc.running k ∨ ∃ e, w'.pc = Pc.caught e) := by
    intro s1 w pc hw himp hs ⟨p, w', hp, hi⟩
    by_cases hpt : p = t
    · subst hpt
      rw [hw] at hp
      cases hp
      exact ⟨p, _, setPc_self _ _ hw hs, himp hi⟩
    · exact ⟨p, w', setPc_other _ _ hp hpt hw hs, hi⟩
  have keepCall : ∀ (s1 : State ε) (w : Worker ε) (pc : Pc ε),
      s.threads[t]? = some w → w.pc ≠ Pc.call k → s1.threads = s.threads →
      (∃ (p : Nat) (w' : Worker ε), s.threads[p]? = some w' ∧ w'.pc = Pc.call k) →
      ∃ (p : Nat) (w' : Worker ε), (setPc s1 t w pc).threads[p]? = some w' ∧ w'.pc = Pc.call k := by
    intro s1 w pc hw hnc hs ⟨p, w', hp, hi⟩
    have hpt : p ≠ t := by
      intro hpt
      subst hpt
      rw [hw] at hp
      cases hp
      exact hnc hi
    exact ⟨p, w', setPc_other _ _ hp hpt hw hs, hi⟩
  apply step_elim fn endIdx s t
  · exact h
  · -- exit
    intro w hw hpc hc
    have hmod := fetch_no_wrap hnw s hlen hB hw (by rw [hpc]; rfl)
    refine ⟨?_, h.acq, ?_, ?_, ?_, ?_, ?_⟩
    · intro p w' e hp hh
      rcases setPc_cases hp hw rfl with ⟨rfl, rfl⟩ | ⟨_, hp'⟩
      · rcases hh with h1 | h1 <;> cases h1
      · exact h.errs p w' e hp' hh
    · intro p w' i hp hh
      rcases setPc_cases hp hw rfl with ⟨rfl, rfl⟩ | ⟨_, hp'⟩
      · cases hh
      · exact h.runs p w' i hp' hh
    · intro p w' hp hh
      rcases setPc_cases hp hw rfl with ⟨rfl, rfl⟩ | ⟨_, hp'⟩
      · cases hh
      · exact h.handler p w' hp' hh
    · intro hin
      rcases h.thrown hin with hex | hacq
      · refine Or.inl (keepThrown _ w _ hw ?_ rfl hex)
        rw [hpc]
        rintro (h1 | ⟨e, h1⟩) <;> cases h1
      · exact Or.inr hacq
    · intro p w' hp hh
      simp only [setPc_current, hmod]
      omega
    · intro hlt
      rcases h.coverK (by omega) with hin | hex
      · exact Or.inl hin
      · exact Or.inr (keepCall _ w _ hw (by rw [hpc]; intro h1; cases h1) rfl hex)
  · -- claim
    intro w hw hpc hc
    have hmod := fetch_no_wrap hnw s hlen hB hw (by rw [hpc]; rfl)
    refine ⟨?_, h.acq, ?_, ?_, ?_, ?_, ?_⟩
    · intro p w' e hp hh
      rcases setPc_cases hp hw rfl with ⟨rfl, rfl⟩ | ⟨_, hp'⟩
      · rcases hh with h1 | h1 <;> cases h1
      · exact h.errs p w' e hp' hh
    · intro p w' i hp hh
      rcases setPc_cases hp hw rfl with ⟨rfl, rfl⟩ | ⟨_, hp'⟩
      · cases hh
      · exact h.runs p w' i hp' hh
    · intro p w' hp hh
      rcases setPc_cases hp hw rfl with ⟨rfl, rfl⟩ | ⟨_, hp'⟩
      · cases hh
      · exact h.handler p w' hp' hh
    · intro hin
      rcases h.thrown hin with hex | hacq
      · refine Or.inl (keepThrown _ w _ hw ?_ rfl hex)
        rw [hpc]
        rintro (h1 | ⟨e, h1⟩) <;> cases h1
      · exact Or.inr hacq
    · intro p w' hp hh
      rcases setPc_cases hp hw rfl with ⟨rfl, rfl⟩ | ⟨_, hp'⟩
      · rcases hh with h1 | h1 <;> cases h1
      · have := h.late p w' hp' hh
        omega
    · intro hlt
      simp only [setPc_current, hmod] at hlt
      by_cases hkc : k = s.current
      · subst hkc
        exact Or.inr ⟨t, _, setPc_self _ _ hw rfl, rfl⟩
      · rcases h.coverK (by omega) with hin | hex
        · exact Or.inl hin
        · exact Or.inr (keepCall _ w _ hw (by rw [hpc]; intro h1; cases h1) rfl hex)
  · -- enter
    intro w id hw hpc
    have grow : ∀ i, i ∈ indices s.calls →
        i ∈ indices (s.calls ++ [⟨some t, id, w.threadId⟩]) := by
      intro i hi
      simp only [indices, List.map_append, List.mem_append]
      exact Or.inl hi
    refine ⟨?_, h.acq, ?_, ?_, ?_, ?_, ?_⟩
    · intro p w' e hp hh
      rcases setPc_cases hp hw rfl with ⟨rfl, rfl⟩ | ⟨_, hp'⟩
      · rcases hh with h1 | h1 <;> cases h1
      · exact h.errs p w' e hp' hh
    · intro p w' i hp hh
      rcases setPc_cases hp hw rfl with ⟨rfl, rfl⟩ | ⟨_, hp'⟩
      · cases hh
        simp [indices]
      · exact grow i (h.runs p w' i hp' hh)
    · intro p w' hp hh
      rcases setPc_cases hp hw rfl with ⟨rfl, rfl⟩ | ⟨_, hp'⟩
      · cases hh
      · exact grow k (h.handler p w' hp' hh)
    · intro hin
      simp only [setPc_calls, indices, List.map_append, List.map_cons, List.map_nil,
        List.mem_append, List.mem_singleton] at hin
      rcases hin with hin | hin
      · rcases h.thrown hin with hex | hacq
        · refine Or.inl (keepThrown _ w _ hw ?_ rfl hex)
          rw [hpc]
          rintro (h1 | ⟨e, h1⟩) <;> cases h1
        · exact Or.inr hacq
      · subst hin
        exact Or.inl ⟨t, _, setPc_self _ _ hw rfl, Or.inl rfl⟩
    · intro p w' hp hh
      rcases setPc_cases hp hw rfl with ⟨rfl, rfl⟩ | ⟨_, hp'⟩
      · rcases hh with h1 | h1 <;> cases h1
      · exact h.late p w' hp' hh
    · intro hlt
      rcases h.coverK hlt with hin | ⟨p, w', hp, hi⟩
      · exact Or.inl (grow k hin)
      · by_cases hpt : p = t
        · subst hpt
          rw [hw] at hp
          cases hp
          rw [hpc] at hi
          cases hi
          left
          simp [indices]
        · exact Or.inr ⟨p, w', setPc_other _ _ hp hpt hw rfl, hi⟩
  · -- return
    intro w id hw hpc hf
    have hid : id ≠ k := by
      intro hid
      subst hid
      exact hk _ hf
    refine ⟨?_, h.acq, ?_, ?_, ?_, ?_, ?_⟩
    · intro p w' e hp hh
      rcases setPc_cases hp hw rfl with ⟨rfl, rfl⟩ | ⟨_, hp'⟩
      · rcases hh with h1 | h1 <;> cases h1
      · exact h.errs p w' e hp' hh
    · intro p w' i hp hh
      rcases setPc_cases hp hw rfl with ⟨rfl, rfl⟩ | ⟨_, hp'⟩
      · cases hh
      · exact h.runs p w' i hp' hh
    · intro p w' hp hh
      rcases setPc_cases hp hw rfl with ⟨rfl, rfl⟩ | ⟨_, hp'⟩
      · cases hh
      · exact h.handler p w' hp' hh
    · intro hin
      rcases h.thrown hin with hex | hacq
      · refine Or.inl (keepThrown _ w _ hw ?_ rfl hex)
        rw [hpc]
        rintro (h1 | ⟨e, h1⟩)
        · cases h1
          exact (hid rfl).elim
        · cases h1
      · exact Or.inr hacq
    · intro p w' hp hh
      rcases setPc_cases hp hw rfl with ⟨rfl, rfl⟩ | ⟨_, hp'⟩
      · rcases hh with h1 | h1 <;> cases h1
      · exact h.late p w' hp' hh
    · intro hlt
      rcases h.coverK hlt with hin | hex
      · exact Or.inl hin
      · exact Or.inr (keepCall _ w _ hw (by rw [hpc]; intro h1; cases h1) rfl hex)
  · -- throw
    intro w id e hw hpc hf
    have hid : id = k := by
      by_contra hne
      rw [hother id _ hne] at hf
      cases hf
    subst hid
    refine ⟨?_, h.acq, ?_, ?_, ?_, ?_, ?_⟩
    · intro p w' e' hp hh
      rcases setPc_cases hp hw rfl with ⟨rfl, rfl⟩ | ⟨_, hp'⟩
      · rcases hh with h1 | h1
        · cases h1
          exact ⟨_, hf⟩
        · cases h1
      · exact h.errs p w' e' hp' hh
    · intro p w' i hp hh
      rcases setPc_cases hp hw rfl with ⟨rfl, rfl⟩ | ⟨_, hp'⟩
      · cases hh
      · exact h.runs p w' i hp' hh
    · intro p w' hp hh
      exact h.runs t w id hw hpc
    · intro hin
      rcases h.thrown hin with hex | hacq
      · exact Or.inl (keepThrown _ w _ hw (fun _ => Or.inr ⟨e, rfl⟩) rfl hex)
      · exact Or.inr hacq
    · intro p w' hp hh
      rcases setPc_cases hp hw rfl with ⟨rfl, rfl⟩ | ⟨_, hp'⟩
      · rcases hh with h1 | h1 <;> cases h1
      · exact h.late p w' hp' hh
    · intro hlt
      rcases h.coverK hlt with hin | hex
      · exact Or.inl hin
      · exact Or.inr (keepCall _ w _ hw (by rw [hpc]; intro h1; cases h1) rfl hex)
  · -- lock
    intro w e hw hpc _
    have hmine := h.errs t w e hw (Or.inl hpc)
    refine ⟨?_, ?_, ?_, ?_, ?_, ?_, ?_⟩
    · intro p w' e' hp hh
      rcases setPc_cases hp hw rfl with ⟨rfl, rfl⟩ | ⟨_, hp'⟩
      · rcases hh with h1 | h1
        · cases h1
        · cases h1
          exact hmine
      · exact h.errs p w' e' hp' hh
    · intro pe hpe
      simp only [setPc_acquired, List.mem_append, List.mem_singleton] at hpe
      rcases hpe with hpe | rfl
      · exact h.acq pe hpe
      · exact hmine
    · intro p w' i hp hh
      rcases setPc_cases hp hw rfl with ⟨rfl, rfl⟩ | ⟨_, hp'⟩
      · cases hh
      · exact h.runs p w' i hp' hh
    · intro p w' hp hh
      exact h.handler t w hw (by rw [hpc]; rfl)
    · intro _
      right
      simp
    · intro p w' hp hh
      rcases setPc_cases hp hw rfl with ⟨rfl, rfl⟩ | ⟨_, hp'⟩
      · rcases hh with h1 | h1 <;> cases h1
      · exact h.late p w' hp' hh
    · intro hlt
      exact Or.inl (h.handler t w hw (by rw [hpc]; rfl))
  · -- record
    intro w e hw hpc
    have hkin := h.handler t w hw (by rw [hpc]; rfl)
    refine ⟨?_, h.acq, ?_, fun _ _ _ _ => hkin, ?_, ?_, fun _ => Or.inl hkin⟩
    · intro p w' e' hp hh
      rcases setPc_cases hp hw rfl with ⟨rfl, rfl⟩ | ⟨_, hp'⟩
      · rcases hh with h1 | h1 <;> cases h1
      · exact h.errs p w' e' hp' hh
    · intro p w' i hp hh
      rcases setPc_cases hp hw rfl with ⟨rfl, rfl⟩ | ⟨_, hp'⟩
      · cases hh
      · exact h.runs p w' i hp' hh
    · intro hin
      rcases h.thrown hin with hex | hacq
      · refine Or.inl (keepThrown _ w _ hw ?_ rfl hex)
        rw [hpc]
        rintro (h1 | ⟨e', h1⟩) <;> cases h1
      · exact Or.inr hacq
    · intro p w' hp hh
      rcases setPc_cases hp hw rfl with ⟨rfl, rfl⟩ | ⟨_, hp'⟩
      · rcases hh with h1 | h1 <;> cases h1
      · exact h.late p w' hp' hh
  · -- store
    intro w hw hpc
    have hkin := h.handler t w hw (by rw [hpc]; rfl)
    refine ⟨?_, h.acq, ?_, fun _ _ _ _ => hkin, ?_, fun _ _ _ _ => Nat.le_refl _,
      fun _ => Or.inl hkin⟩
    · intro p w' e' hp hh
      rcases setPc_cases hp hw rfl with ⟨rfl, rfl⟩ | ⟨_, hp'⟩
      · rcases hh with h1 | h1 <;> cases h1
      · exact h.errs p w' e' hp' hh
    · intro p w' i hp hh
      rcases setPc_cases hp hw rfl with ⟨rfl, rfl⟩ | ⟨_, hp'⟩
      · cases hh
      · exact h.runs p w' i hp' hh
    · intro hin
      rcases h.thrown hin with hex | hacq
      · refine Or.inl (keepThrown _ w _ hw ?_ rfl hex)
        rw [hpc]
        rintro (h1 | ⟨e', h1⟩) <;> cases h1
      · exact Or.inr hacq
  · -- unlock
    intro w hw hpc
    have hkin := h.handler t w hw (by rw [hpc]; rfl)
    have hlate := h.late t w hw (Or.inl hpc)
    refine ⟨?_, h.acq, ?_, fun _ _ _ _ => hkin, ?_, ?_, fun _ => Or.inl hkin⟩
    · intro p w' e' hp hh
      rcases setPc_cases hp hw rfl with ⟨rfl, rfl⟩ | ⟨_, hp'⟩
      · rcases hh with h1 | h1 <;> cases h1
      · exact h.errs p w' e' hp' hh
    · intro p w' i hp hh
      rcases setPc_cases hp hw rfl with ⟨rfl, rfl⟩ | ⟨_, hp'⟩
      · cases hh
      · exact h.runs p w' i hp' hh
    · intro hin
      rcases h.thrown hin with hex | hacq
      · refine Or.inl (keepThrown _ w _ hw ?_ rfl hex)
        rw [hpc]
        rintro (h1 | ⟨e', h1⟩) <;> cases h1
      · exact Or.inr hacq
    · intro p w' hp hh
      exact hlate

theorem oneFailure_run {ε : Type} (fn : Callable ε) (k start endIdx n : Nat)
    (hsk : start ≤ k) (hke : k < endIdx) (hnw : endIdx + n < SIZE_MOD)
    (hk : ∀ w, fn k w ≠ none) (hother : ∀ i w, i ≠ k → fn i w = none) (sched : List Nat) :
    OneFailure fn k endIdx (reach fn start endIdx n sched) := by
  have hse : start ≤ endIdx := by omega
  have key := run_invariant fn endIdx
    (fun s => Inv n s ∧ Bounded start endIdx s ∧ OneFailure fn k endIdx s)
    (fun s t h => ⟨inv_step fn endIdx n s t h.1,
      bounded_step fn start endIdx n hse hnw s t h.1.len h.2.1,
      oneFailure_step fn k start endIdx n hke hnw hk hother s t h.1.len h.2.1 h.2.2⟩)
    (initState ε start n)
    ⟨inv_init ε start n, bounded_init ε start endIdx n hse,
      oneFailure_init fn k start endIdx n hsk⟩ sched
  exact key.2.2

/-! ## Statements about `ParallelFor` -/

/-- C1. Single-worker path: for every range (so for every `start ≤ end`, the
empty range included), when the resolved thread count is 1 and `fn` returns
normally on every index, `ParallelFor` returns normally, spawns no thread, and
its invocation history is exactly `fn(start + j, 0)` for `j = 0, ..., end - start - 1`
in this order, all on the calling thread: `end - start` invocations, the `j`-th
one at index `start + j` with worker id 0. -/
theorem single_worker_runs_in_order {ε : Type} (hw : Nat) (sched : List Nat)
    (start endIdx numThreads : Nat) (fn : Callable ε)
    (hok : ∀ i w, fn i w = none) (hone : resolveThreads hw numThreads = 1) :
    ∃ out, ParallelFor hw sched start endIdx numThreads fn = some out ∧
      out.thrown = none ∧ out.spawned = 0 ∧
      out.calls = (List.range (endIdx - start)).map (fun j => ⟨none, start + j, 0⟩) ∧
      out.calls.length = endIdx - start ∧
      ∀ j, j < endIdx - start → out.calls[j]? = some ⟨none, start + j, 0⟩ := by
  have hrun : forLoop fn endIdx start [] =
      ⟨none, (List.range (endIdx - start)).map (loopEvent start), 0⟩ := by
    rcases forLoop_spec fn endIdx (endIdx - start) start [] rfl with ⟨_, heq⟩ | ⟨k, e, _, hfk, _, _⟩
    · simpa using heq
    · rw [hok] at hfk; cases hfk
  refine ⟨forLoop fn endIdx start [], ?_, ?_, ?_, ?_, ?_, ?_⟩
  · simp only [ParallelFor, hone, if_true]
  · rw [hrun]
  · rw [hrun]
  · rw [hrun]; rfl
  · rw [hrun]; simp
  · intro j hj
    rw [hrun]
    simp only [List.getElem?_map, List.getElem?_range hj, Option.map_some', loopEvent]

/-- Witness for C1: the range `[2, 5)` with one requested thread. -/
theorem single_worker_runs_in_order_witness :
    ∃ out, ParallelFor (ε := Nat) 4 [] 2 5 1 (fun _ _ => none) = some out ∧
      out.thrown = none ∧ out.spawned = 0 ∧
      out.calls = (List.range (5 - 2)).map (fun j => ⟨none, 2 + j, 0⟩) ∧
      out.calls.length = 5 - 2 ∧
      ∀ j, j < 5 - 2 → out.calls[j]? = some ⟨none, 2 + j, 0⟩ :=
  single_worker_runs_in_order 4 [] 2 5 1 (fun _ _ => none) (fun _ _ => rfl) (by decide)

/-- C8. Worker ids are in range and stable. In the single-thread branch every
invocation is made by the calling thread with worker id 0. In the multi-thread
branch, in every reachable state, the spawned threads carry the ids
`0, 1, ..., numThreads - 1` in this order (pairwise distinct), and every
invocation was made by a spawned thread `p < numThreads` that passed its own id
`p`, so two invocations of one thread pass the same id. Every invocation of a
finished call has a worker id below the resolved thread count. -/
theorem worker_ids_in_range_and_stable {ε : Type} (hw : Nat) (start endIdx numThreads : Nat)
    (fn : Callable ε) :
    (resolveThreads hw numThreads = 1 →
      ∀ ev ∈ (forLoop fn endIdx start []).calls, ev.thread = none ∧ ev.workerId = 0) ∧
    (∀ sched : List Nat,
      (run fn endIdx (initState ε start (resolveThreads hw numThreads)) sched).threads.map
          Worker.threadId = List.range (resolveThreads hw numThreads) ∧
      (List.range (resolveThreads hw numThreads)).Nodup ∧
      (∀ ev ∈ (run fn endIdx (initState ε start (resolveThreads hw numThreads)) sched).calls,
        ∃ p, p < resolveThreads hw numThreads ∧ ev.thread = some p ∧ ev.workerId = p) ∧
      (∀ ev ∈ (run fn endIdx (initState ε start (resolveThreads hw numThreads)) sched).calls,
        ∀ ev' ∈ (run fn endIdx (initState ε start (resolveThreads hw numThreads)) sched).calls,
          ev.thread = ev'.thread → ev.workerId = ev'.workerId)) ∧
    (∀ (sched : List Nat) (out : Outcome ε),
      ParallelFor hw sched start endIdx numThreads fn = some out →
      ∀ ev ∈ out.calls, ev.workerId < resolveThreads hw numThreads) := by
  have single : ∀ ev ∈ (forLoop fn endIdx start []).calls, ev.thread = none ∧ ev.workerId = 0 := by
    intro ev hev
    rcases forLoop_spec fn endIdx (endIdx - start) start [] rfl with ⟨_, heq⟩ | ⟨k, e, _, _, _, heq⟩
    · rw [heq] at hev
      simp only [List.nil_append, List.mem_map] at hev
      obtain ⟨j, _, rfl⟩ := hev
      exact ⟨rfl, rfl⟩
    · rw [heq] at hev
      simp only [List.nil_append, List.mem_map] at hev
      obtain ⟨j, _, rfl⟩ := hev
      exact ⟨rfl, rfl⟩
  have multi : ∀ sched : List Nat,
      ∀ ev ∈ (run fn endIdx (initState ε start (resolveThreads hw numThreads)) sched).calls,
        ∃ p, p < resolveThreads hw numThreads ∧ ev.thread = some p ∧ ev.workerId = p := by
    intro sched ev hev
    obtain ⟨p, h1, h2, h3⟩ := (inv_run fn start endIdx _ sched).events ev hev
    exact ⟨p, h3, h1, h2⟩
  refine ⟨fun _ => single, ?_, ?_⟩
  · intro sched
    refine ⟨threadIds_eq_range _ _ (inv_run fn start endIdx _ sched), List.nodup_range _,
      multi sched, ?_⟩
    intro ev hev ev' hev' hsame
    obtain ⟨p, _, hp1, hp2⟩ := multi sched ev hev
    obtain ⟨q, _, hq1, hq2⟩ := multi sched ev' hev'
    rw [hp1, hq1] at hsame
    rw [hp2, hq2]
    exact Option.some.inj hsame
  · intro sched out hout ev hev
    unfold ParallelFor at hout
    simp only at hout
    by_cases h1 : resolveThreads hw numThreads = 1
    · rw [if_pos h1] at hout
      cases hout
      rw [(single ev hev).2, h1]
      exact Nat.one_pos
    · rw [if_neg h1] at hout
      split at hout
      · cases hout
        obtain ⟨p, hp, _, hp2⟩ := multi sched ev hev
        rw [hp2]; exact hp
      · cases hout

/-- Witness for C8: range `[0, 2)`, two threads, both invocations entered. -/
theorem worker_ids_in_range_and_stable_witness :
    ∀ ev ∈ (run (fun _ _ => (none : Option Nat)) 2 (initState Nat 0 (resolveThreads 8 2))
        [0, 1, 0, 1]).calls,
      ∃ p, p < resolveThreads 8 2 ∧ ev.thread = some p ∧ ev.workerId = p :=
  ((worker_ids_in_range_and_stable 8 0 2 2 (fun _ _ => (none : Option Nat))).2.1
    [0, 1, 0, 1]).2.2.1

/-! ## Concrete runs -/

theorem run_no_threads {ε : Type} (fn : Callable ε) (endIdx : Nat) (s : State ε)
    (h : s.threads = []) (sched : List Nat) : run fn endIdx s sched = s := by
  induction sched with
  | nil => rfl
  | cons t rest ih =>
    rw [run_cons]
    have : step fn endIdx s t = s := by
      unfold step
      simp [h]
    rw [this, ih]

/-- C2, evaluation at the failing inputs. For the empty range
`[2^64 - 1, 2^64 - 1)` and two threads, thread 0 fetches `2^64 - 1` and exits,
which wraps the cursor to 0, and thread 1 fetches 0 and invokes `fn(0, 1)`:
every call that begins with this schedule and returns has `fn(0, 1)` in its
invocation history although the range is empty. And a request of 0 threads on
a platform whose `hardware_concurrency()` is 0 resolves to 0 threads: for the
range `[0, 1)` and every schedule `ParallelFor` returns normally without a
single invocation of `fn`, so index 0 is omitted. -/
theorem coverage_fails_at_wrap_and_zero_threads (sched : List Nat) :
    (run neverThrows (2 ^ 64 - 1) (initState Nat (2 ^ 64 - 1) 2) [0, 1, 1]).calls =
      [⟨some 1, 0, 1⟩] ∧
    (∀ out, ParallelFor 8 ([0, 1, 1] ++ sched) (2 ^ 64 - 1) (2 ^ 64 - 1) 2 neverThrows =
      some out → (⟨some 1, 0, 1⟩ : Event) ∈ out.calls) ∧
    ParallelFor 0 sched 0 1 0 neverThrows = some ⟨none, [], 0⟩ := by
  have hfirst : (run neverThrows (2 ^ 64 - 1) (initState Nat (2 ^ 64 - 1) 2) [0, 1, 1]).calls =
      [⟨some 1, 0, 1⟩] := by decide
  refine ⟨hfirst, ?_, ?_⟩
  · intro out hout
    have h2 : resolveThreads 8 2 = 2 := by decide
    unfold ParallelFor at hout
    simp only [h2] at hout
    rw [if_neg (by decide)] at hout
    split at hout
    · cases hout
      obtain ⟨later, hl⟩ := calls_grow neverThrows (2 ^ 64 - 1) sched
        (run neverThrows (2 ^ 64 - 1) (initState Nat (2 ^ 64 - 1) 2) [0, 1, 1])
      rw [← run_append, hfirst] at hl
      show _ ∈ (run neverThrows (2 ^ 64 - 1) (initState Nat (2 ^ 64 - 1) 2)
        ([0, 1, 1] ++ sched)).calls
      rw [hl]
      simp
    · cases hout
  · have h0 : resolveThreads 0 0 = 0 := by decide
    have h1 : run neverThrows 1 (initState Nat 0 0) sched = initState Nat 0 0 :=
      run_no_threads _ _ _ rfl sched
    simp only [ParallelFor, h0, h1]
    decide

/-- C3, evaluation at the failing input `start = 2^64 - 2`, `end = 2^64 - 1`,
three threads, `fn` throwing everywhere: thread 0 claims `2^64 - 2`, thread 1
fetches `2^64 - 1` and exits, which wraps the cursor to 0, thread 2 fetches 0
and invokes `fn(0, 2)`; the call ends with index 0, outside `[start, end)`,
in its invocation history. -/
theorem wrapped_cursor_leaves_the_range :
    ParallelFor 8 [0, 1, 2, 2, 2, 2, 2, 2, 2, 0, 0, 0, 0, 0, 0] (2 ^ 64 - 2) (2 ^ 64 - 1) 3
        alwaysThrows =
      some ⟨some (10 + (2 ^ 64 - 2)), [⟨some 2, 0, 2⟩, ⟨some 0, 2 ^ 64 - 2, 0⟩], 3⟩ ∧
    ¬ (2 ^ 64 - 2 ≤ 0 ∧ 0 < 2 ^ 64 - 1) := by
  decide

/-- C4, evaluation at the failing input `start = 2^64 - 2`, `end = 2^64 - 1`,
three threads, `fn` throwing only at `k = 2^64 - 2`: the call raises the error
of `k`, but after thread 1's exit has wrapped the cursor thread 2 invokes
`fn(0, 2)`, so `fn` is invoked twice on a range of size one. -/
theorem wrapped_cursor_exceeds_range_size :
    ∃ out, ParallelFor 8 [0, 1, 2, 2, 0, 0, 0, 0, 0, 0, 2, 2] (2 ^ 64 - 2) (2 ^ 64 - 1) 3
        (throwsAt (2 ^ 64 - 2) 7) = some out ∧
      out.thrown = some 7 ∧ out.calls.length = 2 ∧ (2 ^ 64 - 1) - (2 ^ 64 - 2) = 1 := by
  refine ⟨⟨some 7, [⟨some 2, 0, 2⟩, ⟨some 0, 2 ^ 64 - 2, 0⟩], 3⟩, ?_, rfl, rfl, ?_⟩
  · decide
  · decide

/-- The undetectable case: a request of 0 threads with
`hardware_concurrency() = 0` resolves to 0 threads. -/
theorem undetectable_concurrency_resolves_to_zero :
    resolveThreads 0 0 = 0 ∧ ¬ (1 ≤ resolveThreads 0 0) := by
  decide

/-- C6, counterexample. The parameter `numThreads` is a `size_t`: the negative
request `-1` arrives as `2^64 - 1`, fails the test `numThreads <= 0` and is
kept, so on a platform with 4 hardware threads the resolved count is
`2^64 - 1`, not 4. -/
theorem negative_request_is_not_auto_detected :
    toSizeT (-1) = 2 ^ 64 - 1 ∧ resolveThreads 4 (toSizeT (-1)) = 2 ^ 64 - 1 ∧
    resolveThreads 4 (toSizeT (-1)) ≠ 4 := by
  decide

/-- C5, counterexample. Range `[0, 2)`, two threads, `fn` throwing `10` at index
0 and `11` at index 1. Thread 0 acquires the mutex first and records `10`; after
it has released the mutex thread 1 acquires it and overwrites the slot with `11`.
The slot is written twice and the call raises `11`, the error of the thread
that acquired the mutex last. -/
theorem later_failure_overwrites_the_slot :
    (run alwaysThrows 2 (initState Nat 0 2) [0, 1, 0, 1, 0, 1, 0, 0, 0, 0]).lastException =
      some 10 ∧
    (run alwaysThrows 2 (initState Nat 0 2) [0, 1, 0, 1, 0, 1, 0, 0, 0, 0, 1, 1]).lastException =
      some 11 ∧
    (run alwaysThrows 2 (initState Nat 0 2)
        [0, 1, 0, 1, 0, 1, 0, 0, 0, 0, 1, 1, 1, 1]).acquired = [(0, 10), (1, 11)] ∧
    ParallelFor 8 [0, 1, 0, 1, 0, 1, 0, 0, 0, 0, 1, 1, 1, 1] 0 2 2 alwaysThrows =
      some ⟨some 11, [⟨some 0, 0, 0⟩, ⟨some 1, 1, 1⟩], 2⟩ := by
  decide

/-- C7, counterexample. For the inverted range `start = 1`, `end = 0` the call
returns normally: with one thread at once, with two threads after both have
been spawned and have exited at their first fetch. For the inverted range
`start = 2^64 - 1`, `end = 1` with two threads, the exit of thread 0 wraps the
cursor to 0 and thread 1 invokes `fn(0, 1)`. -/
theorem inverted_range_returns_normally :
    ParallelFor 8 [] 1 0 1 neverThrows = some ⟨none, [], 0⟩ ∧
    ParallelFor 8 [0, 1] 1 0 2 neverThrows = some ⟨none, [], 2⟩ ∧
    (run neverThrows 1 (initState Nat (2 ^ 64 - 1) 2) [0, 1, 1]).calls = [⟨some 1, 0, 1⟩] := by
  refine ⟨?_, ?_, ?_⟩
  · simp [ParallelFor, resolveThreads, forLoop]
  · decide
  · decide

/-- C9, counterexample. Range `[0, 1)`, two threads, `fn` throwing at index 0.
Thread 0 claims index 0, thread 1 fetches 1 and exits, leaving the cursor at 2;
the handler of thread 0 then assigns `current = end`, lowering the cursor from
2 to 1. And for the empty range at `start = end = 2^64 - 1` the first
fetch-and-add wraps the cursor from `2^64 - 1` to 0. -/
theorem store_lowers_the_cursor :
    (run alwaysThrows 1 (initState Nat 0 2) [0, 1, 0, 0, 0, 0]).current = 2 ∧
    (step alwaysThrows 1 (run alwaysThrows 1 (initState Nat 0 2) [0, 1, 0, 0, 0, 0]) 0).current
      = 1 ∧
    (initState Nat (2 ^ 64 - 1) 2).current = 2 ^ 64 - 1 ∧
    (step alwaysThrows (2 ^ 64 - 1) (initState Nat (2 ^ 64 - 1) 2) 0).current = 0 := by
  decide

/-- C10, counterexample. Range `[0, 2)`, two threads, `fn` throwing at index 0
only. Thread 1 has claimed index 1 but not yet entered `fn` when thread 0
fails, records its error, assigns `current = end` and returns. Thread 1 then
enters `fn(1, 1)`: an invocation started after the failure was handled.
And for the range `[2^64 - 2, 2^64 - 1)` with three threads: after thread 0 has
handled its failure at `2^64 - 2` and returned, thread 1 fetches `2^64 - 1` and
exits, which wraps the cursor to 0, and the fetch of thread 2 obtains `0 < end`
and claims index 0. -/
theorem claimed_index_is_invoked_after_failure :
    (run (throwsAt 0 7) 2 (initState Nat 0 2) [0, 1, 0, 0, 0, 0, 0, 0]) =
      ⟨2, some 7, none, [⟨0, Pc.done⟩, ⟨1, Pc.call 1⟩], [⟨some 0, 0, 0⟩], [(0, 7)]⟩ ∧
    (step (throwsAt 0 7) 2 (run (throwsAt 0 7) 2 (initState Nat 0 2) [0, 1, 0, 0, 0, 0, 0, 0])
        1).calls = [⟨some 0, 0, 0⟩, ⟨some 1, 1, 1⟩] ∧
    (run alwaysThrows (2 ^ 64 - 1) (initState Nat (2 ^ 64 - 2) 3) [0, 0, 0, 0, 0, 0, 0]) =
      ⟨2 ^ 64 - 1, some (10 + (2 ^ 64 - 2)), none,
        [⟨0, Pc.done⟩, ⟨1, Pc.fetch⟩, ⟨2, Pc.fetch⟩], [⟨some 0, 2 ^ 64 - 2, 0⟩],
        [(0, 10 + (2 ^ 64 - 2))]⟩ ∧
    (run alwaysThrows (2 ^ 64 - 1) (initState Nat (2 ^ 64 - 2) 3)
        [0, 0, 0, 0, 0, 0, 0, 1, 2]).threads = [⟨0, Pc.done⟩, ⟨1, Pc.done⟩, ⟨2, Pc.call 0⟩] := by
  decide

/-- C5 (amended). In the multi-thread branch every failing thread overwrites
`lastException` while it holds the mutex: the assignment of line 42 stores the
error of the thread that executes it whatever the slot held before, and no
other transition changes the slot. Hence the error raised after the joins is
the error of the thread that acquired the mutex last (`none`, a normal return,
when no thread ever acquired it). -/
theorem last_lock_holder_error_is_raised {ε : Type} (hw : Nat) (sched : List Nat)
    (start endIdx numThreads : Nat) (fn : Callable ε) (out : Outcome ε)
    (hmulti : resolveThreads hw numThreads ≠ 1)
    (hout : ParallelFor hw sched start endIdx numThreads fn = some out) :
    out.thrown =
      ((run fn endIdx (initState ε start (resolveThreads hw numThreads))
        sched).acquired.getLast?).map Prod.snd ∧
    (∀ (s : State ε) (t : Nat) (w : Worker ε) (e : ε), s.threads[t]? = some w →
      w.pc = Pc.locked e → (step fn endIdx s t).lastException = some e) ∧
    (∀ (s : State ε) (t : Nat), (step fn endIdx s t).lastException = s.lastException ∨
      ∃ w e, s.threads[t]? = some w ∧ w.pc = Pc.locked e ∧
        (step fn endIdx s t).lastException = some e) := by
  refine ⟨?_, ?_, fun s t => slot_written_only_by_record fn endIdx s t⟩
  · unfold ParallelFor at hout
    simp only [if_neg hmulti] at hout
    split at hout
    · rename_i hj
      cases hout
      have hI := inv_run fn start endIdx (resolveThreads hw numThreads) sched
      apply hI.recorded
      intro p w e hp hl
      have := allJoined_done _ hj p w hp
      rw [this] at hl
      cases hl
    · cases hout
  · intro s t w e hw' hpc
    rw [step_record fn endIdx s t w e hw' hpc]
    rfl

/-- Witness for C5 (amended): the run in which thread 1 acquires the mutex
after thread 0. -/
theorem last_lock_holder_error_is_raised_witness :
    (⟨some 11, [⟨some 0, 0, 0⟩, ⟨some 1, 1, 1⟩], 2⟩ : Outcome Nat).thrown =
      ((run alwaysThrows 2 (initState Nat 0 (resolveThreads 8 2))
        [0, 1, 0, 1, 0, 1, 0, 0, 0, 0, 1, 1, 1, 1]).acquired.getLast?).map Prod.snd :=
  (last_lock_holder_error_is_raised 8 [0, 1, 0, 1, 0, 1, 0, 0, 0, 0, 1, 1, 1, 1] 0 2 2
    alwaysThrows ⟨some 11, [⟨some 0, 0, 0⟩, ⟨some 1, 1, 1⟩], 2⟩ (by decide) (by decide)).1

/-- C7 (amended). `ParallelFor` has no range check. For `end < start` (and
`start + numThreads < 2^64`, so that the cursor cannot wrap) it never invokes
`fn`, in no state of no schedule, and every call that returns returns normally,
with no configuration error. With a resolved count of 1 the loop is skipped
at once and no thread is spawned; otherwise all `numThreads` threads are
spawned, each exits at its first fetch, and the call returns as soon as every
thread has been scheduled once. -/
theorem inverted_range_is_not_rejected {ε : Type} (hw : Nat) (sched : List Nat)
    (start endIdx numThreads : Nat) (fn : Callable ε) (hinv : endIdx < start)
    (hnw : start + resolveThreads hw numThreads < SIZE_MOD) :
    (∀ sched' : List Nat,
      (run fn endIdx (initState ε start (resolveThreads hw numThreads)) sched').calls = []) ∧
    forLoop fn endIdx start [] = ⟨none, [], 0⟩ ∧
    (∀ out, ParallelFor hw sched start endIdx numThreads fn = some out →
      out.thrown = none ∧ out.calls = [] ∧
      out.spawned = if resolveThreads hw numThreads = 1 then 0
        else resolveThreads hw numThreads) ∧
    ((resolveThreads hw numThreads = 1 ∨ ∀ p, p < resolveThreads hw numThreads → p ∈ sched) →
      ∃ out, ParallelFor hw sched start endIdx numThreads fn = some out) := by
  have hloop : forLoop fn endIdx start [] = ⟨none, [], 0⟩ :=
    forLoop_exit fn endIdx start [] (by omega)
  refine ⟨fun sched' => (inverted_run fn start endIdx _ hinv hnw sched').noCalls, hloop, ?_, ?_⟩
  · intro out hout
    unfold ParallelFor at hout
    by_cases h1 : resolveThreads hw numThreads = 1
    · simp only [if_pos h1] at hout
      cases hout
      rw [hloop, if_pos h1]
      exact ⟨rfl, rfl, rfl⟩
    · simp only [if_neg h1] at hout
      split at hout
      · cases hout
        have hV := inverted_run fn start endIdx _ hinv hnw sched
        rw [if_neg h1]
        exact ⟨hV.noError, hV.noCalls, rfl⟩
      · cases hout
  · intro hsched
    unfold ParallelFor
    by_cases h1 : resolveThreads hw numThreads = 1
    · simp only [if_pos h1]
      exact ⟨_, rfl⟩
    · simp only [if_neg h1]
      have hall : ∀ p, p < resolveThreads hw numThreads → p ∈ sched := by
        rcases hsched with h | h
        · exact (h1 h).elim
        · exact h
      have hI := inv_run fn start endIdx (resolveThreads hw numThreads) sched
      have hj : allJoined (run fn endIdx (initState ε start (resolveThreads hw numThreads))
          sched) = true := by
        apply allJoined_of_done
        intro p w hp
        have hlt : p < resolveThreads hw numThreads := by
          rw [← hI.len]
          exact (List.getElem?_eq_some.mp hp).1
        obtain ⟨w', hw1, hw2⟩ := inverted_scheduled_done fn start endIdx _ hinv hnw p sched
          (initState ε start _) (inv_init ε start _) (inverted_init ε start _) hlt (hall p hlt)
        rw [hp] at hw1
        cases hw1
        exact hw2
      rw [if_pos hj]
      exact ⟨_, rfl⟩

/-- Witness for C7 (amended): the inverted range `start = 1`, `end = 0` with two
threads, each scheduled once. -/
theorem inverted_range_is_not_rejected_witness :
    ∃ out, ParallelFor 8 [0, 1] 1 0 2 neverThrows = some out :=
  (inverted_range_is_not_rejected 8 [0, 1] 1 0 2 neverThrows (by decide) (by decide)).2.2.2
    (Or.inr (by decide))

/-- C9 (amended). With `start ≤ end` and `end + numThreads < 2^64` in the
multi-thread branch, for every reachable state and every transition from it: the
cursor starts at `start` and is never below `start`; a transition leaves the
cursor unchanged, or is a fetch-and-add that makes it one larger, or is the
assignment `current = end` of a failing thread; the cursor gets smaller only by
such an assignment when it had already advanced past `end`; and the cursor
capped at `end`, `min current end`, never decreases. -/
theorem capped_cursor_never_decreases {ε : Type} (fn : Callable ε) (start endIdx n : Nat)
    (hse : start ≤ endIdx) (hnw : endIdx + n < SIZE_MOD) (sched : List Nat) (t : Nat) :
    (reach fn start endIdx n []).current = start ∧
    start ≤ (reach fn start endIdx n sched).current ∧
    start ≤ (step fn endIdx (reach fn start endIdx n sched) t).current ∧
    min (reach fn start endIdx n sched).current endIdx ≤
      min (step fn endIdx (reach fn start endIdx n sched) t).current endIdx ∧
    ((step fn endIdx (reach fn start endIdx n sched) t).current =
        (reach fn start endIdx n sched).current ∨
      (step fn endIdx (reach fn start endIdx n sched) t).current =
        (reach fn start endIdx n sched).current + 1 ∨
      ((step fn endIdx (reach fn start endIdx n sched) t).current = endIdx ∧
        ∃ w, (reach fn start endIdx n sched).threads[t]? = some w ∧ w.pc = Pc.store)) ∧
    ((step fn endIdx (reach fn start endIdx n sched) t).current <
        (reach fn start endIdx n sched).current →
      endIdx < (reach fn start endIdx n sched).current ∧
      (step fn endIdx (reach fn start endIdx n sched) t).current = endIdx ∧
      ∃ w, (reach fn start endIdx n sched).threads[t]? = some w ∧ w.pc = Pc.store) := by
  have hI : Inv n (reach fn start endIdx n sched) := inv_run fn start endIdx n sched
  have hB : Bounded start endIdx (reach fn start endIdx n sched) :=
    bounded_run fn start endIdx n hse hnw sched
  have hB' := bounded_step fn start endIdx n hse hnw _ t hI.len hB
  refine ⟨rfl, hB.lo, hB'.lo, ?_⟩
  generalize reach fn start endIdx n sched = s at hI hB hB'
  apply step_elim fn endIdx s t (motive := fun s' =>
    min s.current endIdx ≤ min s'.current endIdx ∧
    (s'.current = s.current ∨ s'.current = s.current + 1 ∨
      (s'.current = endIdx ∧ ∃ w, s.threads[t]? = some w ∧ w.pc = Pc.store)) ∧
    (s'.current < s.current → endIdx < s.current ∧ s'.current = endIdx ∧
      ∃ w, s.threads[t]? = some w ∧ w.pc = Pc.store))
  · exact ⟨Nat.le_refl _, Or.inl rfl, fun h => (Nat.lt_irrefl _ h).elim⟩
  · intro w hw hpc hc
    have hmod := fetch_no_wrap hnw s hI.len hB hw (by rw [hpc]; rfl)
    simp only [setPc_current, hmod]
    refine ⟨?_, Or.inr (Or.inl trivial), fun h => by omega⟩
    simp only [Nat.min_def]; split <;> split <;> omega
  · intro w hw hpc hc
    have hmod := fetch_no_wrap hnw s hI.len hB hw (by rw [hpc]; rfl)
    simp only [setPc_current, hmod]
    refine ⟨?_, Or.inr (Or.inl trivial), fun h => by omega⟩
    simp only [Nat.min_def]; split <;> split <;> omega
  · intro w id hw hpc
    exact ⟨Nat.le_refl _, Or.inl rfl, fun h => (Nat.lt_irrefl _ h).elim⟩
  · intro w id hw hpc _
    exact ⟨Nat.le_refl _, Or.inl rfl, fun h => (Nat.lt_irrefl _ h).elim⟩
  · intro w id e hw hpc _
    exact ⟨Nat.le_refl _, Or.inl rfl, fun h => (Nat.lt_irrefl _ h).elim⟩
  · intro w e hw hpc _
    exact ⟨Nat.le_refl _, Or.inl rfl, fun h => (Nat.lt_irrefl _ h).elim⟩
  · intro w e hw hpc
    exact ⟨Nat.le_refl _, Or.inl rfl, fun h => (Nat.lt_irrefl _ h).elim⟩
  · intro w hw hpc
    simp only [setPc_current]
    refine ⟨?_, Or.inr (Or.inr ⟨trivial, w, hw, hpc⟩), fun h => ⟨h, trivial, w, hw, hpc⟩⟩
    simp only [Nat.min_def]; split <;> split <;> omega
  · intro w hw hpc
    exact ⟨Nat.le_refl _, Or.inl rfl, fun h => (Nat.lt_irrefl _ h).elim⟩

/-- Witness for C9 (amended): the range `[0, 1)` with two threads, at the
assignment that lowers the cursor from 2 to 1. -/
theorem capped_cursor_never_decreases_witness :
    min (reach alwaysThrows 0 1 2 [0, 1, 0, 0, 0, 0]).current 1 ≤
      min (step alwaysThrows 1 (reach alwaysThrows 0 1 2 [0, 1, 0, 0, 0, 0]) 0).current 1 :=
  (capped_cursor_never_decreases alwaysThrows 0 1 2 (by decide) (by decide)
    [0, 1, 0, 0, 0, 0] 0).2.2.2.1

/-- C10 (amended). With `start ≤ end` and `end + numThreads < 2^64`: once a
failing thread has executed `current = end` (thread `t` at line 49 in the state
reached by `sched1`), in every state reached afterwards (by any `sched2`) the
cursor is at least `end`; every fetch made then obtains a value `≥ end` and
ends its thread without an invocation; the only invocations entered afterwards
are of indices that their thread had claimed before the assignment and not yet
passed to `fn`; and no index is passed to `fn` twice, so the failed index is
not retried. In the single-thread branch a throwing invocation is the last
invocation of the call. -/
theorem failure_stops_new_claims {ε : Type} (fn : Callable ε) (start endIdx n : Nat)
    (hse : start ≤ endIdx) (hnw : endIdx + n < SIZE_MOD) (sched1 sched2 : List Nat) (t : Nat)
    (w : Worker ε) (hw : (reach fn start endIdx n sched1).threads[t]? = some w)
    (hpc : w.pc = Pc.store) :
    endIdx ≤ (reach fn start endIdx n (sched1 ++ t :: sched2)).current ∧
    (∀ (u : Nat) (wu : Worker ε),
      (reach fn start endIdx n (sched1 ++ t :: sched2)).threads[u]? = some wu →
      wu.pc = Pc.fetch →
      (step fn endIdx (reach fn start endIdx n (sched1 ++ t :: sched2)) u).threads[u]? =
          some ⟨wu.threadId, Pc.done⟩ ∧
        (step fn endIdx (reach fn start endIdx n (sched1 ++ t :: sched2)) u).calls =
          (reach fn start endIdx n (sched1 ++ t :: sched2)).calls) ∧
    (∃ later, (reach fn start endIdx n (sched1 ++ t :: sched2)).calls =
        (reach fn start endIdx n sched1).calls ++ later ∧
      ∀ ev ∈ later, ∃ p wp, ev.thread = some p ∧
        (reach fn start endIdx n sched1).threads[p]? = some wp ∧ wp.pc = Pc.call ev.index) ∧
    (indices (reach fn start endIdx n (sched1 ++ t :: sched2)).calls).Nodup ∧
    (∀ (j : Nat) (ev : Event), (forLoop fn endIdx start []).calls[j]? = some ev →
      fn ev.index ev.workerId ≠ none → j + 1 = (forLoop fn endIdx start []).calls.length) := by
  have hI1 : Inv n (reach fn start endIdx n sched1) := inv_run fn start endIdx n sched1
  have hB1 : Bounded start endIdx (reach fn start endIdx n sched1) :=
    bounded_run fn start endIdx n hse hnw sched1
  have hI2 : Inv n (reach fn start endIdx n (sched1 ++ t :: sched2)) :=
    inv_run fn start endIdx n _
  have hB2 : Bounded start endIdx (reach fn start endIdx n (sched1 ++ t :: sched2)) :=
    bounded_run fn start endIdx n hse hnw _
  have hstore := step_store fn endIdx (reach fn start endIdx n sched1) t w hw hpc
  have hbase : endIdx ≤ (step fn endIdx (reach fn start endIdx n sched1) t).current := by
    rw [hstore]; exact Nat.le_refl _
  have hA := after_run fn start endIdx n hse hnw
    (step fn endIdx (reach fn start endIdx n sched1) t)
    (inv_step fn endIdx n _ t hI1) (bounded_step fn start endIdx n hse hnw _ t hI1.len hB1)
    hbase sched2
  rw [← reach_append_cons] at hA
  refine ⟨hA.cur, ?_, ?_, hB2.nodup, fun j ev hj hf => forLoop_throw_is_last fn start endIdx j ev hj hf⟩
  · intro u wu hu hfetch
    rw [step_exit fn endIdx _ u wu hu hfetch hA.cur]
    exact ⟨setPc_self _ _ hu rfl, rfl⟩
  · obtain ⟨later, h1, h2⟩ := hA.later
    refine ⟨later, ?_, ?_⟩
    · rw [h1, hstore]; rfl
    · intro ev hev
      obtain ⟨p, w0, hp1, hp2, hp3⟩ := h2 ev hev
      rw [hstore] at hp2
      rcases setPc_cases hp2 hw rfl with ⟨_, rfl⟩ | ⟨_, hp'⟩
      · cases hp3
      · exact ⟨p, w0, hp1, hp', hp3⟩

/-- Witness for C10 (amended): range `[0, 2)`, two threads, `fn` throwing at
index 0; thread 0 executes `current = end` while thread 1 holds the claimed
index 1. -/
theorem failure_stops_new_claims_witness :
    2 ≤ (reach (throwsAt 0 7) 0 2 2 ([0, 1, 0, 0, 0, 0] ++ 0 :: [0, 1])).current :=
  (failure_stops_new_claims (throwsAt 0 7) 0 2 2 (by decide) (by decide) [0, 1, 0, 0, 0, 0]
    [0, 1] 0 ⟨0, Pc.store⟩ (by decide) rfl).1

/-- C6 (amended). Worker-count resolution at the top of `ParallelFor`. The count
is an unsigned `size_t`, so the only auto-detect request is 0: for a request of
0 and every value `hw ≥ 1` reported by `hardware_concurrency()` the resolved
count is `hw`; every other request is resolved to itself, also a negative `int`
argument `z` (`-2^31 ≤ z < 0`), which arrives as `2^64 + z`; consequently the
resolved count is at least 1 whenever the request is not 0 or `hw ≥ 1`. -/
theorem thread_count_resolution (hw numThreads : Nat) (z : Int) :
    (1 ≤ hw → resolveThreads hw 0 = hw) ∧
    (numThreads ≠ 0 → resolveThreads hw numThreads = numThreads) ∧
    (numThreads ≠ 0 ∨ 1 ≤ hw → 1 ≤ resolveThreads hw numThreads) ∧
    toSizeT 0 = 0 ∧
    (-(2 ^ 31 : Int) ≤ z → z < 0 →
      (toSizeT z : Int) = 2 ^ 64 + z ∧ resolveThreads hw (toSizeT z) = toSizeT z) := by
  have keep : ∀ m : Nat, m ≠ 0 → resolveThreads hw m = m := by
    intro m hm
    unfold resolveThreads
    rw [if_neg (by omega)]
  refine ⟨fun _ => by simp [resolveThreads], keep numThreads, ?_, by decide, ?_⟩
  · rintro (h | h)
    · rw [keep numThreads h]; omega
    · by_cases h0 : numThreads = 0
      · subst h0
        simp only [resolveThreads, Nat.le_refl, if_true]
        exact h
      · rw [keep numThreads h0]; omega
  · intro h1 h2
    have hconv : (toSizeT z : Int) = 2 ^ 64 + z := by
      unfold toSizeT
      rw [Int.toNat_of_nonneg (Int.emod_nonneg _ (by norm_num))]
      omega
    refine ⟨hconv, keep _ ?_⟩
    intro h0
    rw [h0] at hconv
    omega

/-- Witness for C6 (amended): a request of 0 on a platform with 4 hardware
threads resolves to 4. -/
theorem thread_count_resolution_witness : resolveThreads 4 0 = 4 :=
  (thread_count_resolution 4 0 (-1)).1 (by decide)

/-! ## What holds away from the two defects

Coverage, at-most-once claiming and the surfacing of a single failure hold
whenever at least one thread is resolved and `end + numThreads < 2^64`. -/

/-- Exact coverage away from the defects (at least one thread resolved and
`end + numThreads < 2^64`): when `fn` never throws, every call that returns
returns normally and its invocation history is a permutation of
`start, ..., end - 1`; and every schedule can be continued so that the call
returns. -/
theorem every_index_invoked_exactly_once {ε : Type} (hw : Nat) (sched : List Nat)
    (start endIdx numThreads : Nat) (fn : Callable ε) (hse : start ≤ endIdx)
    (hpos : 1 ≤ resolveThreads hw numThreads)
    (hnw : endIdx + resolveThreads hw numThreads < SIZE_MOD) (hok : ∀ i w, fn i w = none) :
    (∀ out, ParallelFor hw sched start endIdx numThreads fn = some out →
      out.thrown = none ∧ (indices out.calls).Perm (List.range' start (endIdx - start))) ∧
    (∃ sched2 out, ParallelFor hw (sched ++ sched2) start endIdx numThreads fn = some out) := by
  constructor
  · intro out hout
    unfold ParallelFor at hout
    by_cases h1 : resolveThreads hw numThreads = 1
    · simp only [if_pos h1] at hout
      cases hout
      rcases forLoop_spec fn endIdx (endIdx - start) start [] rfl with
        ⟨_, heq⟩ | ⟨j, e, _, hfj, _, _⟩
      · rw [heq]
        simp only [List.nil_append, indices_loopEvent]
        exact ⟨trivial, List.Perm.refl _⟩
      · rw [hok] at hfj; cases hfj
    · simp only [if_neg h1] at hout
      split at hout
      · rename_i hj
        cases hout
        have hI := inv_run fn start endIdx (resolveThreads hw numThreads) sched
        have hB := bounded_run fn start endIdx (resolveThreads hw numThreads) hse hnw sched
        have hC := covering_run fn start endIdx (resolveThreads hw numThreads) hse hnw hok sched
        refine ⟨hC.noError, ?_⟩
        have h0 : 0 < (reach fn start endIdx (resolveThreads hw numThreads) sched).threads.length := by
          have := hI.len
          simp only [reach]
          omega
        have hend := hC.doneImp 0 _ (List.getElem?_eq_getElem h0)
          (allJoined_done _ hj 0 _ (List.getElem?_eq_getElem h0))
        apply (List.perm_ext_iff_of_nodup hB.nodup (List.nodup_range' start (endIdx - start))).mpr
        intro a
        rw [List.mem_range'_1]
        constructor
        · intro ha
          obtain ⟨ev, hev, rfl⟩ := List.mem_map.mp ha
          have := hB.callsIn ev hev
          omega
        · intro ha
          rcases hC.cover a ha.1 (by omega) (by omega) with hin | ⟨p, w, hp, hpc⟩
          · exact hin
          · have := allJoined_done _ hj p w hp
            rw [this] at hpc
            cases hpc
      · cases hout
  · unfold ParallelFor
    by_cases h1 : resolveThreads hw numThreads = 1
    · simp only [if_pos h1]
      exact ⟨[], _, rfl⟩
    · simp only [if_neg h1]
      obtain ⟨sched2, hj⟩ := run_can_be_completed fn start endIdx
        (resolveThreads hw numThreads) hse hnw sched
      refine ⟨sched2, ?_⟩
      simp only [reach] at hj
      rw [if_pos hj]
      exact ⟨_, rfl⟩

/-- At-most-once, in-range claiming away from the defect (with
`end + numThreads < 2^64`): for every `fn` and every schedule, every index
passed to `fn` lies in `[start, end)` and no index is passed twice. -/
theorem no_index_twice_or_out_of_range {ε : Type} (fn : Callable ε)
    (start endIdx numThreads : Nat) (hse : start ≤ endIdx)
    (hnw : endIdx + numThreads < SIZE_MOD) (sched : List Nat) :
    (∀ ev ∈ (reach fn start endIdx numThreads sched).calls,
      start ≤ ev.index ∧ ev.index < endIdx) ∧
    (indices (reach fn start endIdx numThreads sched).calls).Nodup :=
  ⟨(invocations_in_range_once fn start endIdx numThreads hse hnw sched).1,
    (invocations_in_range_once fn start endIdx numThreads hse hnw sched).2.1⟩

/-- A single failure is surfaced away from the defect (with at least one
thread resolved and `end + numThreads < 2^64`): when `fn` throws at `k` in
`[start, end)` and nowhere else, every call that returns raises an error that
`fn` threw at `k`, has invoked `fn` at `k`, has invoked no index twice and has
made at most `end - start` invocations; and every schedule can be continued so
that the call returns. -/
theorem single_failure_is_raised {ε : Type} (hw : Nat) (sched : List Nat)
    (start endIdx numThreads : Nat) (fn : Callable ε) (k : Nat) (hsk : start ≤ k)
    (hke : k < endIdx) (hpos : 1 ≤ resolveThreads hw numThreads)
    (hnw : endIdx + resolveThreads hw numThreads < SIZE_MOD) (hk : ∀ w, fn k w ≠ none)
    (hother : ∀ i w, i ≠ k → fn i w = none) :
    (∀ out, ParallelFor hw sched start endIdx numThreads fn = some out →
      (∃ e wid, fn k wid = some e ∧ out.thrown = some e) ∧ k ∈ indices out.calls ∧
      (indices out.calls).Nodup ∧ out.calls.length ≤ endIdx - start) ∧
    (∃ sched2 out, ParallelFor hw (sched ++ sched2) start endIdx numThreads fn = some out) := by
  have hse : start ≤ endIdx := by omega
  constructor
  · intro out hout
    unfold ParallelFor at hout
    by_cases h1 : resolveThreads hw numThreads = 1
    · simp only [if_pos h1] at hout
      cases hout
      rcases forLoop_spec fn endIdx (endIdx - start) start [] rfl with
        ⟨hall, _⟩ | ⟨j, e, hj, hfj, _, heq⟩
      · exact (hk 0 (hall k hsk hke)).elim
      · have hjk : start + j = k := by
          by_contra hne
          rw [hother _ _ hne] at hfj
          cases hfj
        rw [heq]
        simp only [List.nil_append, indices_loopEvent, List.length_map, List.length_range]
        refine ⟨⟨e, 0, by rw [← hjk]; exact hfj, rfl⟩, ?_, List.nodup_range' start (j + 1), by omega⟩
        rw [List.mem_range'_1]
        omega
    · simp only [if_neg h1] at hout
      split at hout
      · rename_i hj
        cases hout
        have hI := inv_run fn start endIdx (resolveThreads hw numThreads) sched
        have hF := oneFailure_run fn k start endIdx (resolveThreads hw numThreads) hsk hke hnw
          hk hother sched
        have hR := invocations_in_range_once fn start endIdx (resolveThreads hw numThreads)
          hse hnw sched
        have h0 : 0 < (reach fn start endIdx (resolveThreads hw numThreads) sched).threads.length := by
          have := hI.len
          simp only [reach]
          omega
        have hend := hF.late 0 _ (List.getElem?_eq_getElem h0)
          (Or.inr (allJoined_done _ hj 0 _ (List.getElem?_eq_getElem h0)))
        have hkin : k ∈ indices (reach fn start endIdx (resolveThreads hw numThreads) sched).calls := by
          rcases hF.coverK (by omega) with hin | ⟨p, w, hp, hpc⟩
          · exact hin
          · have := allJoined_done _ hj p w hp
            rw [this] at hpc
            cases hpc
        have hacq : (reach fn start endIdx (resolveThreads hw numThreads) sched).acquired ≠ [] := by
          rcases hF.thrown hkin with ⟨p, w, hp, hpc⟩ | hacq
          · have := allJoined_done _ hj p w hp
            rw [this] at hpc
            rcases hpc with h2 | ⟨e, h2⟩ <;> cases h2
          · exact hacq
        have hrec := hI.recorded (by
          intro p w e hp hl
          have := allJoined_done _ hj p w hp
          rw [this] at hl
          cases hl)
        refine ⟨?_, hkin, hR.2.1, hR.2.2⟩
        obtain ⟨pe, hpe⟩ : ∃ pe,
            (reach fn start endIdx (resolveThreads hw numThreads) sched).acquired.getLast? =
              some pe := by
          cases hl : (reach fn start endIdx (resolveThreads hw numThreads) sched).acquired.getLast? with
          | none => exact (hacq (List.getLast?_eq_none_iff.mp hl)).elim
          | some pe => exact ⟨pe, rfl⟩
        obtain ⟨wid, hwid⟩ := hF.acq pe (List.mem_of_getLast?_eq_some hpe)
        refine ⟨pe.2, wid, hwid, ?_⟩
        show (run fn endIdx (initState ε start (resolveThreads hw numThreads)) sched).lastException
          = some pe.2
        rw [hrec]
        simp only [reach] at hpe
        rw [hpe]
        rfl
      · cases hout
  · unfold ParallelFor
    by_cases h1 : resolveThreads hw numThreads = 1
    · simp only [if_pos h1]
      exact ⟨[], _, rfl⟩
    · simp only [if_neg h1]
      obtain ⟨sched2, hj⟩ := run_can_be_completed fn start endIdx
        (resolveThreads hw numThreads) hse hnw sched
      refine ⟨sched2, ?_⟩
      simp only [reach] at hj
      rw [if_pos hj]
      exact ⟨_, rfl⟩

end MtSearch
